import Mathlib

/-!
Verification of the Batched Embedding & Deduplication Engine.

Shallow embedding of:
- `processInBatches` / `getAdaptiveBatchSize` (embedding queue service),
- `validateEmbedding` / `embedSingle` with its retry schedule (Ollama service),
- `llmJudgeDuplicate` / `autoAcceptProposals` / `isValidConceptId` /
  `validateProposedConcepts` (auto-tagger service).

Effects are modelled explicitly: batch runs return a list of results together
with an event trace (item processings, progress reports, checkpoint-hook
invocations, inter-batch sleeps); concurrent completion order inside a batch is
an explicit oracle (a permutation of the batch's indices), mirroring the fact
that each concurrent call writes its result back to its input position.
-/

/-! ## Embedding queue: configuration and progress (part_004) -/

/-- Configuration for embedding batch processing, mirroring
`EmbeddingQueueConfig`. -/
structure EmbeddingQueueConfig where
  batchSize : Nat
  concurrency : Nat
  batchDelayMs : Nat
  checkpointAfterBatch : Bool
  adaptiveBatchSize : Bool
deriving DecidableEq

/-- `DEFAULT_QUEUE_CONFIG` from the source. -/
def DEFAULT_QUEUE_CONFIG : EmbeddingQueueConfig :=
  { batchSize := 20, concurrency := 3, batchDelayMs := 50,
    checkpointAfterBatch := true, adaptiveBatchSize := true }

/-- `Math.round` for a nonnegative rational: round half up. -/
def jsRound (x : ℚ) : ℤ := ⌊x + 1 / 2⌋

/-- `Math.round((p / t) * 100)` as computed in the progress report. -/
def percentOf (p t : Nat) : ℤ := jsRound ((p : ℚ) / (t : ℚ) * 100)

/-- Progress record, mirroring `BatchProgress`. -/
structure BatchProgress where
  batch : Nat
  totalBatches : Nat
  processed : Nat
  total : Nat
  percent : ℤ
deriving DecidableEq

/-- `Math.ceil(n / b)` for naturals, as used for `totalBatches`. -/
def jsCeilDiv (n b : Nat) : Nat := (n + b - 1) / b

/-! ## Batch slicing

The source computes `items.slice(batchIdx * B, min((batchIdx + 1) * B, N))`
for each batch index; equivalently the list is cut into consecutive chunks of
`B` elements (last one possibly shorter).  The recursion is fuelled by the
list length so that it is structural and kernel-evaluable. -/

/-- Cut a list into consecutive chunks of `B` elements; `fuel` bounds the
recursion depth (any `fuel ≥ l.length` gives the real answer). -/
def sliceChunksGo (B : Nat) : Nat → List α → List (List α)
  | _, [] => []
  | 0, _ :: _ => []
  | fuel + 1, a :: as => (a :: as.take (B - 1)) :: sliceChunksGo B fuel (as.drop (B - 1))

/-- The batches of `processInBatches`: consecutive slices of `B` items. -/
def sliceChunks (B : Nat) (items : List α) : List (List α) :=
  sliceChunksGo B items.length items

theorem sliceChunksGo_join {B : Nat} :
    ∀ (fuel : Nat) (l : List α), l.length ≤ fuel → (sliceChunksGo B fuel l).flatten = l := by
  intro fuel
  induction fuel with
  | zero =>
    intro l hl
    match l with
    | [] => rfl
  | succ n ih =>
    intro l hl
    match l with
    | [] => rfl
    | a :: as =>
      simp only [sliceChunksGo, List.flatten_cons]
      rw [ih (as.drop (B - 1)) (by simp only [List.length_cons] at hl; simp; omega)]
      simp [List.take_append_drop]

theorem sliceChunks_join {B : Nat} (items : List α) :
    (sliceChunks B items).flatten = items :=
  sliceChunksGo_join items.length items le_rfl

theorem sliceChunksGo_length {B : Nat} (hB : 0 < B) :
    ∀ (fuel : Nat) (l : List α), l.length ≤ fuel →
      (sliceChunksGo B fuel l).length = jsCeilDiv l.length B := by
  intro fuel
  induction fuel with
  | zero =>
    intro l hl
    match l with
    | [] => simp [sliceChunksGo, jsCeilDiv, Nat.div_eq_of_lt (by omega : B - 1 < B)]
  | succ n ih =>
    intro l hl
    match l with
    | [] => simp [sliceChunksGo, jsCeilDiv, Nat.div_eq_of_lt (by omega : B - 1 < B)]
    | a :: as =>
      simp only [sliceChunksGo, List.length_cons]
      rw [ih (as.drop (B - 1)) (by simp only [List.length_cons] at hl; simp; omega)]
      simp only [jsCeilDiv, List.length_drop, List.length_cons]
      rcases le_or_lt (B - 1) as.length with h | h
      · have h1 : as.length - (B - 1) + B - 1 = as.length := by omega
        have h2 : as.length + 1 + B - 1 = as.length + B := by omega
        rw [h1, h2, Nat.add_div_right _ hB]
      · have h1 : as.length - (B - 1) + B - 1 = B - 1 := by omega
        have h2 : (B - 1) / B = 0 := Nat.div_eq_of_lt (by omega)
        have h3 : (as.length + 1 + B - 1) / B = 1 := by
          have he : as.length + 1 + B - 1 = as.length + B := by omega
          rw [he, Nat.add_div_right _ hB, Nat.div_eq_of_lt (by omega)]
        rw [h1, h2, h3]

theorem sliceChunks_length {B : Nat} (hB : 0 < B) (items : List α) :
    (sliceChunks B items).length = jsCeilDiv items.length B :=
  sliceChunksGo_length hB items.length items le_rfl

/-- Every chunk of a slicing is nonempty. -/
theorem sliceChunksGo_ne_nil {B : Nat} :
    ∀ (fuel : Nat) (l : List α), ∀ c ∈ sliceChunksGo B fuel l, c ≠ [] := by
  intro fuel
  induction fuel with
  | zero =>
    intro l c hc
    match l with
    | [] => simp [sliceChunksGo] at hc
  | succ n ih =>
    intro l c hc
    match l with
    | [] => simp [sliceChunksGo] at hc
    | a :: as =>
      simp only [sliceChunksGo, List.mem_cons] at hc
      rcases hc with h | h
      · subst h; simp
      · exact ih _ c h

/-- The length of the last chunk: `N % B` items, or `B` when `B ∣ N`. -/
theorem sliceChunksGo_getLast {B : Nat} (hB : 0 < B) :
    ∀ (fuel : Nat) (l : List α) (h : l ≠ []), l.length ≤ fuel →
      ∃ last, (sliceChunksGo B fuel l).getLast? = some last ∧
        last.length = (if l.length % B = 0 then B else l.length % B) := by
  intro fuel
  induction fuel with
  | zero =>
    intro l h hl
    match l with
    | [] => exact absurd rfl h
  | succ n ih =>
    intro l h hl
    match l with
    | a :: as =>
      simp only [sliceChunksGo]
      by_cases hrest : as.drop (B - 1) = []
      · have hlen : as.length ≤ B - 1 := by
          have := List.drop_eq_nil_iff.mp hrest
          omega
        rw [hrest]
        have hgo : sliceChunksGo B n ([] : List α) = [] := by
          match n with
          | 0 => rfl
          | _ + 1 => rfl
        rw [hgo]
        refine ⟨a :: as.take (B - 1), rfl, ?_⟩
        have htake : (as.take (B - 1)).length = as.length := by
          rw [List.length_take, Nat.min_eq_right hlen]
        simp only [List.length_cons, htake, List.length_cons]
        rcases Nat.lt_or_ge (as.length + 1) B with hlt | hge
        · rw [Nat.mod_eq_of_lt hlt, if_neg (by omega)]
        · have heq : as.length + 1 = B := by omega
          rw [heq, Nat.mod_self, if_pos rfl]
      · obtain ⟨last, hlast, hlen⟩ := ih (as.drop (B - 1)) hrest
          (by simp only [List.length_cons] at hl; simp; omega)
        refine ⟨last, ?_, ?_⟩
        · cases hgo : sliceChunksGo B n (as.drop (B - 1)) with
          | nil => rw [hgo] at hlast; simp at hlast
          | cons x xs =>
            rw [List.getLast?_cons_cons]
            rw [hgo] at hlast
            exact hlast
        · have hBle : B ≤ as.length + 1 := by
            have := List.drop_eq_nil_iff.not.mp hrest
            omega
          have hmod : (as.length + 1) % B = (as.length - (B - 1)) % B := by
            rw [Nat.mod_eq_sub_mod hBle]
            congr 1
            omega
          simp only [List.length_drop] at hlen
          simp only [List.length_cons, hmod]
          exact hlen

theorem sliceChunks_getLast {B : Nat} (hB : 0 < B) (items : List α) (h : items ≠ []) :
    ∃ last, (sliceChunks B items).getLast? = some last ∧
      last.length = (if items.length % B = 0 then B else items.length % B) :=
  sliceChunksGo_getLast hB items.length items h le_rfl

/-! ## Concurrent batch processing

`Stream.mapEffect(process, { concurrency })` starts up to `concurrency` calls
at a time and collects each result at its input's position.  We model an
arbitrary completion order as a list of input indices (`order`): results are
written into per-index slots in completion order, and the batch result is read
off slot by slot.  Order independence is then a theorem, not an assumption. -/

/-- Write each finished item's result into its slot, in completion order. -/
def fillSlots (f : α → β) (batch : List α) : List Nat → List (Option β) → List (Option β)
  | [], slots => slots
  | j :: rest, slots => fillSlots f batch rest (slots.set j (batch[j]?.map f))

/-- Read off the collected results; `none` when some slot never completed. -/
def allSome : List (Option β) → Option (List β)
  | [] => some []
  | none :: _ => none
  | some b :: rest => (allSome rest).map (b :: ·)

/-- Result of a bounded-concurrency batch run whose calls completed in
`order`. -/
def collectConcurrent (f : α → β) (batch : List α) (order : List Nat) : Option (List β) :=
  allSome (fillSlots f batch order (List.replicate batch.length none))

theorem fillSlots_length (f : α → β) (batch : List α) :
    ∀ (order : List Nat) (slots : List (Option β)),
      (fillSlots f batch order slots).length = slots.length := by
  intro order
  induction order with
  | nil => intro slots; rfl
  | cons j rest ih => intro slots; rw [fillSlots, ih, List.length_set]

theorem fillSlots_getElem? (f : α → β) (batch : List α) :
    ∀ (order : List Nat) (slots : List (Option β)) (j : Nat),
      (fillSlots f batch order slots)[j]? =
        if j ∈ order ∧ j < slots.length then some (batch[j]?.map f) else slots[j]? := by
  intro order
  induction order with
  | nil => intro slots j; simp [fillSlots]
  | cons k rest ih =>
    intro slots j
    rw [fillSlots, ih, List.length_set, List.getElem?_set]
    by_cases hj : j < slots.length
    · by_cases hm : j ∈ rest
      · rw [if_pos ⟨hm, hj⟩, if_pos ⟨List.mem_cons_of_mem k hm, hj⟩]
      · rw [if_neg (fun h => hm h.1)]
        by_cases hk : k = j
        · subst hk
          rw [if_pos rfl, if_pos hj, if_pos ⟨List.mem_cons_self k rest, hj⟩]
        · rw [if_neg hk, if_neg (fun h => ?_)]
          rcases List.mem_cons.mp h.1 with h1 | h1
          · exact hk h1.symm
          · exact hm h1
    · have hnone : slots[j]? = none := List.getElem?_eq_none (le_of_not_lt hj)
      have h1 : ¬(j ∈ rest ∧ j < slots.length) := fun h => hj h.2
      have h2 : ¬(j ∈ k :: rest ∧ j < slots.length) := fun h => hj h.2
      rw [if_neg h1, if_neg h2]
      by_cases hk : k = j
      · subst hk
        rw [if_pos rfl, if_neg hj, hnone]
      · rw [if_neg hk]

theorem allSome_map_some : ∀ (l : List β), allSome (l.map some) = some l := by
  intro l
  induction l with
  | nil => rfl
  | cons b rest ih => simp [allSome, ih]

/-- Order independence: whenever the completion order is a permutation of the
batch's indices, the collected results are exactly `batch.map f`, in input
order. -/
theorem collectConcurrent_eq_map (f : α → β) (batch : List α) (order : List Nat)
    (h : order.Perm (List.range batch.length)) :
    collectConcurrent f batch order = some (batch.map f) := by
  have hfin : fillSlots f batch order (List.replicate batch.length none)
      = batch.map (fun a => some (f a)) := by
    apply List.ext_getElem?
    intro j
    rw [fillSlots_getElem?]
    have hmem : j ∈ order ↔ j < batch.length := by
      rw [h.mem_iff, List.mem_range]
    by_cases hj : j < batch.length
    · rw [if_pos ⟨hmem.mpr hj, by simpa using hj⟩]
      simp [List.getElem?_eq_getElem, hj]
    · rw [if_neg (by simp [hmem, hj])]
      rw [List.getElem?_eq_none, List.getElem?_eq_none]
      · simpa using le_of_not_lt hj
      · simpa using le_of_not_lt hj
  rw [collectConcurrent, hfin]
  have : batch.map (fun a => some (f a)) = (batch.map f).map some := by
    simp [List.map_map]
  rw [this, allSome_map_some]

/-! ## The batch run and its event trace -/

/-- Observable events of a `processInBatches` run: an item finishing (with its
global input index and result), a progress report, a checkpoint-hook
invocation, and the inter-batch sleep. -/
inductive QueueEv (β : Type u) where
  | processed (idx : Nat) (result : β)
  | progress (p : BatchProgress)
  | checkpoint
  | sleep (ms : Nat)
deriving DecidableEq

/-- Item-completion events of one batch, in completion order; `start` is the
number of items in earlier batches. -/
def batchEvents (f : α → β) (chunk : List α) (order : List Nat) (start : Nat) :
    List (QueueEv β) :=
  order.filterMap fun j => chunk[j]?.map fun a => QueueEv.processed (start + j) (f a)

/-- Events after a batch's items: the progress report (when a callback was
given), the checkpoint hook (when given and enabled), and the backpressure
sleep (except after the last batch) — in source order. -/
def batchTailEvents (cfg : EmbeddingQueueConfig) (hasHook hasProgress : Bool)
    (total totalBatches b after : Nat) : List (QueueEv β) :=
  (if hasProgress then
      [QueueEv.progress ⟨b + 1, totalBatches, after, total, percentOf after total⟩]
    else [])
  ++ (if hasHook && cfg.checkpointAfterBatch then [QueueEv.checkpoint] else [])
  ++ (if 0 < cfg.batchDelayMs ∧ b < totalBatches - 1 then [QueueEv.sleep cfg.batchDelayMs]
    else [])

/-- The batch loop of `processInBatches`: one chunk at a time, collecting the
batch's results (in input order) and appending the post-batch events; `b` is
the batch index and `done` the number of items already processed. -/
def runBatchesGo (f : α → β) (cfg : EmbeddingQueueConfig) (hasHook hasProgress : Bool)
    (orders : Nat → List Nat) (total totalBatches : Nat) :
    List (List α) → Nat → Nat → Option (List β × List (QueueEv β))
  | [], _, _ => some ([], [])
  | c :: cs, b, done =>
    match collectConcurrent f c (orders b) with
    | none => none
    | some rs =>
      match runBatchesGo f cfg hasHook hasProgress orders total totalBatches cs (b + 1)
        (done + c.length) with
      | none => none
      | some (restRes, restTr) =>
        some (rs ++ restRes,
          (batchEvents f c (orders b) done
              ++ batchTailEvents cfg hasHook hasProgress total totalBatches b (done + c.length))
            ++ restTr)

/-- `processInBatches(items, process, config, afterBatch?, onProgress?)`:
slices `items` into batches of `config.batchSize`, processes each batch under
the completion-order oracle `orders`, and returns all results with the run's
event trace. -/
def processInBatches (f : α → β) (cfg : EmbeddingQueueConfig) (hasHook hasProgress : Bool)
    (orders : Nat → List Nat) (items : List α) : Option (List β × List (QueueEv β)) :=
  runBatchesGo f cfg hasHook hasProgress orders items.length
    (jsCeilDiv items.length cfg.batchSize) (sliceChunks cfg.batchSize items) 0 0

/-- The canonical trace of a successful run. -/
def canonicalTrace (f : α → β) (cfg : EmbeddingQueueConfig) (hasHook hasProgress : Bool)
    (orders : Nat → List Nat) (total totalBatches : Nat) :
    List (List α) → Nat → Nat → List (QueueEv β)
  | [], _, _ => []
  | c :: cs, b, done =>
    (batchEvents f c (orders b) done
        ++ batchTailEvents cfg hasHook hasProgress total totalBatches b (done + c.length))
      ++ canonicalTrace f cfg hasHook hasProgress orders total totalBatches cs (b + 1)
        (done + c.length)

/-- Master lemma: under valid completion orders the run succeeds, the results
are `map f` over all items in input order, and the trace is canonical. -/
theorem runBatchesGo_eq (f : α → β) (cfg : EmbeddingQueueConfig) (hH hP : Bool)
    (orders : Nat → List Nat) (total totalBatches : Nat) :
    ∀ (cs : List (List α)) (b done : Nat),
      (∀ i c, cs[i]? = some c → (orders (b + i)).Perm (List.range c.length)) →
      runBatchesGo f cfg hH hP orders total totalBatches cs b done =
        some (cs.flatten.map f,
          canonicalTrace f cfg hH hP orders total totalBatches cs b done) := by
  intro cs
  induction cs with
  | nil => intro b done _; rfl
  | cons c cs ih =>
    intro b done h
    have h0 : (orders b).Perm (List.range c.length) := by
      have := h 0 c (by simp)
      simpa using this
    have hrest : ∀ i c', cs[i]? = some c' → (orders (b + 1 + i)).Perm (List.range c'.length) := by
      intro i c' hc
      have := h (i + 1) c' (by simpa using hc)
      have harith : b + (i + 1) = b + 1 + i := by omega
      rwa [harith] at this
    rw [runBatchesGo, collectConcurrent_eq_map f c (orders b) h0,
      ih (b + 1) (done + c.length) hrest]
    simp [canonicalTrace]

/-! ## Trace observations -/

/-- Global input indices of the item-completion events, in trace order. -/
def processedIndices (tr : List (QueueEv β)) : List Nat :=
  tr.filterMap fun e => match e with | .processed i _ => some i | _ => none

/-- The progress reports of a trace, in order. -/
def progressEvents (tr : List (QueueEv β)) : List BatchProgress :=
  tr.filterMap fun e => match e with | .progress p => some p | _ => none

/-- Number of checkpoint-hook invocations in a trace. -/
def checkpointCount (tr : List (QueueEv β)) : Nat :=
  tr.countP fun e => match e with | .checkpoint => true | _ => false

/-- The interleaving of item completions (labelled by their batch index
`idx / B`) and checkpoint-hook invocations (labelled `none`). -/
def cpShape (B : Nat) (tr : List (QueueEv β)) : List (Option Nat) :=
  tr.filterMap fun e => match e with
    | .processed i _ => some (some (i / B))
    | .checkpoint => some none
    | _ => none

/-- For each batch in turn: all of its item completions, then exactly one
checkpoint.  `cpShape` of a checkpointing run matches this. -/
def cpCanonical (B : Nat) : List (List α) → Nat → List (Option Nat)
  | [], _ => []
  | c :: cs, b => List.replicate c.length (some b) ++ none :: cpCanonical B cs (b + 1)

theorem processedIndices_append (tr tr' : List (QueueEv β)) :
    processedIndices (tr ++ tr') = processedIndices tr ++ processedIndices tr' :=
  List.filterMap_append _ _ _

theorem progressEvents_append (tr tr' : List (QueueEv β)) :
    progressEvents (tr ++ tr') = progressEvents tr ++ progressEvents tr' :=
  List.filterMap_append _ _ _

theorem cpShape_append (B : Nat) (tr tr' : List (QueueEv β)) :
    cpShape B (tr ++ tr') = cpShape B tr ++ cpShape B tr' :=
  List.filterMap_append _ _ _

theorem processedIndices_batchEvents (f : α → β) (ch : List α) (start : Nat) :
    ∀ (ord : List Nat), (∀ j ∈ ord, j < ch.length) →
      processedIndices (batchEvents f ch ord start) = ord.map (start + ·) := by
  intro ord
  induction ord with
  | nil => intro _; rfl
  | cons j rest ih =>
    intro h
    have hj : j < ch.length := h j (List.mem_cons_self j rest)
    have hrest := fun j hj => h j (List.mem_cons_of_mem _ hj)
    have hsome : ch[j]?.map (fun a => QueueEv.processed (start + j) (f a))
        = some (QueueEv.processed (start + j) (f ch[j])) := by
      rw [List.getElem?_eq_getElem hj, Option.map_some']
    have hstep : batchEvents f ch (j :: rest) start
        = QueueEv.processed (start + j) (f ch[j]) :: batchEvents f ch rest start := by
      simp only [batchEvents, List.filterMap_cons, hsome]
    rw [hstep]
    have hcons : processedIndices (QueueEv.processed (start + j) (f ch[j])
        :: batchEvents f ch rest start)
        = (start + j) :: processedIndices (batchEvents f ch rest start) := rfl
    rw [hcons, ih hrest, List.map_cons]

theorem processedIndices_batchTailEvents (cfg : EmbeddingQueueConfig)
    (hH hP : Bool) (total tB b after : Nat) :
    processedIndices (batchTailEvents (β := β) cfg hH hP total tB b after) = [] := by
  simp only [batchTailEvents, processedIndices, List.filterMap_append]
  split_ifs <;> rfl

theorem progressEvents_batchEvents (f : α → β) (ch : List α) (ord : List Nat) (start : Nat) :
    progressEvents (batchEvents f ch ord start) = [] := by
  simp only [batchEvents, progressEvents, List.filterMap_filterMap]
  rw [List.filterMap_eq_nil_iff]
  intro j hj
  rcases hcj : ch[j]? with _ | a <;> simp [hcj]

theorem progressEvents_batchTailEvents (cfg : EmbeddingQueueConfig)
    (hH : Bool) (total tB b after : Nat) :
    progressEvents (batchTailEvents (β := β) cfg hH true total tB b after) =
      [⟨b + 1, tB, after, total, percentOf after total⟩] := by
  simp only [batchTailEvents, progressEvents, List.filterMap_append]
  split_ifs <;> rfl

theorem checkpointCount_append (tr tr' : List (QueueEv β)) :
    checkpointCount (tr ++ tr') = checkpointCount tr + checkpointCount tr' :=
  List.countP_append _ _ _

theorem checkpointCount_batchEvents (f : α → β) (ch : List α) (start : Nat) :
    ∀ (ord : List Nat), checkpointCount (batchEvents f ch ord start) = 0 := by
  intro ord
  induction ord with
  | nil => rfl
  | cons j rest ih =>
    rcases hcj : ch[j]? with _ | a
    · simp only [batchEvents, List.filterMap_cons, hcj, Option.map_none'] at ih ⊢
      exact ih
    · simp only [batchEvents, List.filterMap_cons, hcj, Option.map_some'] at ih ⊢
      simp only [checkpointCount, List.countP_cons] at ih ⊢
      simpa using ih

theorem checkpointCount_batchTailEvents (cfg : EmbeddingQueueConfig)
    (hH hP : Bool) (total tB b after : Nat) :
    checkpointCount (batchTailEvents (β := β) cfg hH hP total tB b after) =
      (if hH && cfg.checkpointAfterBatch then 1 else 0) := by
  simp only [batchTailEvents, checkpointCount, List.countP_append]
  split_ifs <;> rfl

/-! ## Canonical run facts -/

/-- The progress reports of a run, batch by batch. -/
def canonicalProgress (total totalBatches : Nat) :
    List (List α) → Nat → Nat → List BatchProgress
  | [], _, _ => []
  | c :: cs, b, done =>
    ⟨b + 1, totalBatches, done + c.length, total, percentOf (done + c.length) total⟩ ::
      canonicalProgress total totalBatches cs (b + 1) (done + c.length)

theorem progressEvents_canonicalTrace (f : α → β) (cfg : EmbeddingQueueConfig)
    (hH : Bool) (orders : Nat → List Nat) (total tB : Nat) :
    ∀ (cs : List (List α)) (b done : Nat),
      progressEvents (canonicalTrace f cfg hH true orders total tB cs b done) =
        canonicalProgress total tB cs b done := by
  intro cs
  induction cs with
  | nil => intro b done; rfl
  | cons ch cs ih =>
    intro b done
    simp only [canonicalTrace, canonicalProgress, progressEvents_append,
      progressEvents_batchEvents, progressEvents_batchTailEvents, ih]
    simp

theorem processedIndices_canonicalTrace (f : α → β) (cfg : EmbeddingQueueConfig)
    (hH hP : Bool) (orders : Nat → List Nat) (total tB : Nat) :
    ∀ (cs : List (List α)) (b done : Nat),
      (∀ i c, cs[i]? = some c → (orders (b + i)).Perm (List.range c.length)) →
      (processedIndices (canonicalTrace f cfg hH hP orders total tB cs b done)).Perm
        (List.range' done cs.flatten.length) := by
  intro cs
  induction cs with
  | nil => intro b done _; simp [canonicalTrace, processedIndices]
  | cons ch cs ih =>
    intro b done h
    have h0 : (orders b).Perm (List.range ch.length) := by
      have := h 0 ch (by simp)
      simpa using this
    have hrest : ∀ i c', cs[i]? = some c' → (orders (b + 1 + i)).Perm (List.range c'.length) := by
      intro i c' hc
      have := h (i + 1) c' (by simpa using hc)
      have harith : b + (i + 1) = b + 1 + i := by omega
      rwa [harith] at this
    have hmem : ∀ j ∈ orders b, j < ch.length := by
      intro j hj
      exact List.mem_range.mp (h0.mem_iff.mp hj)
    simp only [canonicalTrace, processedIndices_append,
      processedIndices_batchEvents f ch done (orders b) hmem,
      processedIndices_batchTailEvents, List.append_nil]
    have hperm1 : ((orders b).map (done + ·)).Perm (List.range' done ch.length) := by
      have := h0.map (done + ·)
      rwa [← List.range'_eq_map_range] at this
    have hperm2 := ih (b + 1) (done + ch.length) hrest
    have happ := hperm1.append hperm2
    rw [List.range'_append_1 done ch.length cs.flatten.length] at happ
    have hflat : (ch :: cs).flatten.length = cs.flatten.length + ch.length := by
      rw [List.flatten_cons, List.length_append]
      omega
    rw [hflat]
    exact happ

theorem checkpointCount_canonicalTrace (f : α → β) (cfg : EmbeddingQueueConfig)
    (hH hP : Bool) (orders : Nat → List Nat) (total tB : Nat) :
    ∀ (cs : List (List α)) (b done : Nat),
      checkpointCount (canonicalTrace f cfg hH hP orders total tB cs b done) =
        (if hH && cfg.checkpointAfterBatch then cs.length else 0) := by
  intro cs
  induction cs with
  | nil => intro b done; split_ifs <;> rfl
  | cons ch cs ih =>
    intro b done
    rw [canonicalTrace, checkpointCount_append, checkpointCount_append,
      checkpointCount_batchEvents, checkpointCount_batchTailEvents, ih]
    split_ifs <;> simp <;> omega

theorem cpShape_batchEvents {B : Nat} (f : α → β) (ch : List α) (b0 : Nat) :
    ∀ (ord : List Nat), (∀ j ∈ ord, j < ch.length) → ch.length ≤ B →
      cpShape B (batchEvents f ch ord (b0 * B)) = List.replicate ord.length (some b0) := by
  intro ord
  induction ord with
  | nil => intro _ _; rfl
  | cons j rest ih =>
    intro h hlen
    have hj : j < ch.length := h j (List.mem_cons_self j rest)
    have hB : 0 < B := by omega
    have hrest := fun j hj => h j (List.mem_cons_of_mem _ hj)
    have hsome : ch[j]?.map (fun a => QueueEv.processed (b0 * B + j) (f a))
        = some (QueueEv.processed (b0 * B + j) (f ch[j])) := by
      rw [List.getElem?_eq_getElem hj, Option.map_some']
    have hstep : batchEvents f ch (j :: rest) (b0 * B)
        = QueueEv.processed (b0 * B + j) (f ch[j]) :: batchEvents f ch rest (b0 * B) := by
      simp only [batchEvents, List.filterMap_cons, hsome]
    rw [hstep]
    have hcons : cpShape B (QueueEv.processed (b0 * B + j) (f ch[j])
        :: batchEvents f ch rest (b0 * B))
        = some ((b0 * B + j) / B) :: cpShape B (batchEvents f ch rest (b0 * B)) := rfl
    have hdiv : (b0 * B + j) / B = b0 := by
      rw [Nat.mul_comm b0 B, Nat.mul_add_div hB,
        Nat.div_eq_of_lt (lt_of_lt_of_le hj hlen), Nat.add_zero]
    rw [hcons, hdiv, ih hrest hlen, List.length_cons, List.replicate_succ]

theorem cpShape_batchTailEvents {B : Nat} (cfg : EmbeddingQueueConfig)
    (hH hP : Bool) (total tB b after : Nat) :
    cpShape B (batchTailEvents (β := β) cfg hH hP total tB b after) =
      (if hH && cfg.checkpointAfterBatch then [none] else []) := by
  simp only [batchTailEvents, cpShape, List.filterMap_append]
  split_ifs <;> rfl

/-- In a checkpointing run over the real batch slicing, the interleaving of
item completions and checkpoint invocations is canonical: all of batch `b`'s
items, then exactly one checkpoint, then batch `b + 1`. -/
theorem cpShape_canonicalTrace {B : Nat} (f : α → β) (cfg : EmbeddingQueueConfig)
    (hP : Bool) (orders : Nat → List Nat) (total tB : Nat)
    (hcp : cfg.checkpointAfterBatch = true) :
    ∀ (fuel : Nat) (l : List α) (b done : Nat), l.length ≤ fuel → done = b * B → 0 < B →
      (∀ i c, (sliceChunksGo B fuel l)[i]? = some c →
        (orders (b + i)).Perm (List.range c.length)) →
      cpShape B (canonicalTrace f cfg true hP orders total tB
          (sliceChunksGo B fuel l) b done) =
        cpCanonical B (sliceChunksGo B fuel l) b := by
  intro fuel
  induction fuel with
  | zero =>
    intro l b done hl _ _ _
    match l with
    | [] => rfl
  | succ n ih =>
    intro l b done hl hdone hB hord
    match l with
    | [] => rfl
    | a :: as =>
      subst hdone
      have hgo : sliceChunksGo B (n + 1) (a :: as) =
          (a :: as.take (B - 1)) :: sliceChunksGo B n (as.drop (B - 1)) := rfl
      have h0 : (orders b).Perm (List.range (a :: as.take (B - 1)).length) := by
        have := hord 0 (a :: as.take (B - 1)) (by rw [hgo]; simp)
        simpa using this
      have hmem : ∀ j ∈ orders b, j < (a :: as.take (B - 1)).length :=
        fun j hj => List.mem_range.mp (h0.mem_iff.mp hj)
      have hlenle : (a :: as.take (B - 1)).length ≤ B := by
        simp only [List.length_cons, List.length_take]
        omega
      have hordlen : (orders b).length = (a :: as.take (B - 1)).length := by
        simpa using h0.length_eq
      rw [hgo, canonicalTrace, cpShape_append, cpShape_append,
        cpShape_batchEvents f (a :: as.take (B - 1)) b (orders b) hmem hlenle,
        cpShape_batchTailEvents, hordlen, cpCanonical]
      simp only [hcp, Bool.and_self, if_pos]
      by_cases hrest : as.drop (B - 1) = []
      · have hgonil : sliceChunksGo B n ([] : List α) = [] := by
          match n with
          | 0 => rfl
          | _ + 1 => rfl
        rw [hrest, hgonil]
        simp [canonicalTrace, cpShape, cpCanonical]
      · have hchlen : (a :: as.take (B - 1)).length = B := by
          have hd := List.drop_eq_nil_iff.not.mp hrest
          simp only [List.length_cons, List.length_take]
          omega
        have hord' : ∀ i c, (sliceChunksGo B n (as.drop (B - 1)))[i]? = some c →
            (orders (b + 1 + i)).Perm (List.range c.length) := by
          intro i c hc
          have := hord (i + 1) c (by rw [hgo]; simpa using hc)
          have harith : b + (i + 1) = b + 1 + i := by omega
          rwa [harith] at this
        have hd' : b * B + (a :: as.take (B - 1)).length = (b + 1) * B := by
          rw [hchlen]
          ring
        rw [hd', ih (as.drop (B - 1)) (b + 1) ((b + 1) * B)
          (by simp only [List.length_cons] at hl; simp; omega) rfl hB hord']
        simp

/-! ## Percent arithmetic -/

theorem percentOf_mono (t : Nat) {p q : Nat} (h : p ≤ q) :
    percentOf p t ≤ percentOf q t := by
  unfold percentOf jsRound
  apply Int.floor_le_floor
  rcases Nat.eq_zero_or_pos t with ht | ht
  · subst ht
    simp
  · have hpq : (p : ℚ) ≤ q := by exact_mod_cast h
    have ht' : (0 : ℚ) < t := by exact_mod_cast ht
    gcongr

theorem percentOf_total {N : Nat} (h : 0 < N) : percentOf N N = 100 := by
  unfold percentOf jsRound
  have hN : (N : ℚ) ≠ 0 := by exact_mod_cast h.ne'
  rw [div_self hN, one_mul, Int.floor_eq_iff]
  constructor <;> norm_num

/-! ## Canonical progress facts -/

theorem canonicalProgress_length (total tB : Nat) :
    ∀ (cs : List (List α)) (b done : Nat),
      (canonicalProgress total tB cs b done).length = cs.length := by
  intro cs
  induction cs with
  | nil => intro b done; rfl
  | cons ch cs ih =>
    intro b done
    rw [canonicalProgress, List.length_cons, ih, List.length_cons]

theorem canonicalProgress_mem (total tB : Nat) :
    ∀ (cs : List (List α)) (b done : Nat), ∀ p ∈ canonicalProgress total tB cs b done,
      p.total = total ∧ p.percent = percentOf p.processed total := by
  intro cs
  induction cs with
  | nil => intro b done p hp; simp [canonicalProgress] at hp
  | cons ch cs ih =>
    intro b done p hp
    rw [canonicalProgress, List.mem_cons] at hp
    rcases hp with hp | hp
    · subst hp
      exact ⟨rfl, rfl⟩
    · exact ih (b + 1) (done + ch.length) p hp

theorem canonicalProgress_chain (total tB : Nat) :
    ∀ (cs : List (List α)) (b done : Nat), (∀ c ∈ cs, c ≠ []) →
      List.Chain' (fun p q => p.processed < q.processed ∧ p.percent ≤ q.percent)
        (canonicalProgress total tB cs b done) := by
  intro cs
  induction cs with
  | nil => intro b done _; simp [canonicalProgress]
  | cons ch cs ih =>
    intro b done hne
    rw [canonicalProgress, List.chain'_cons']
    constructor
    · intro q hq
      match cs with
      | [] => simp [canonicalProgress] at hq
      | ch' :: cs' =>
        rw [canonicalProgress] at hq
        simp only [List.head?_cons, Option.mem_def, Option.some.injEq] at hq
        subst hq
        have hpos : 0 < ch'.length :=
          List.length_pos.mpr (hne ch' (List.mem_cons_of_mem _ (List.mem_cons_self _ _)))
        refine ⟨by simp; omega, ?_⟩
        exact percentOf_mono total (by omega)
    · exact ih (b + 1) (done + ch.length) fun c hc => hne c (List.mem_cons_of_mem _ hc)

theorem canonicalProgress_getLast (total tB : Nat) :
    ∀ (cs : List (List α)) (b done : Nat), cs ≠ [] →
      ∃ pl, (canonicalProgress total tB cs b done).getLast? = some pl ∧
        pl.processed = done + cs.flatten.length ∧
        pl.percent = percentOf (done + cs.flatten.length) total := by
  intro cs
  induction cs with
  | nil => intro b done h; exact absurd rfl h
  | cons ch cs ih =>
    intro b done _
    match cs with
    | [] =>
      refine ⟨_, rfl, ?_, ?_⟩ <;> simp [canonicalProgress]
    | ch' :: cs' =>
      obtain ⟨pl, hlast, hproc, hperc⟩ := ih (b + 1) (done + ch.length) (by simp)
      refine ⟨pl, ?_, ?_, ?_⟩
      · rw [canonicalProgress, canonicalProgress, List.getLast?_cons_cons]
        rw [canonicalProgress] at hlast
        exact hlast
      · rw [hproc]
        simp only [List.flatten_cons, List.length_append]
        omega
      · rw [hperc]
        congr 1
        simp only [List.flatten_cons, List.length_append]
        omega

/-! ## Batch scheduler: claim theorems -/

/-- C1: for every list of `N` items and batch size `B > 0`, `processInBatches`
cuts the input into `⌈N/B⌉` consecutive batches, the last holding `N mod B`
items (or `B` when `N mod B = 0`); it processes every item exactly once and
returns the result sequence in input order (`result[i] = f items[i]`), for
every concurrency setting and every completion order of the concurrent calls
within each batch. -/
theorem processInBatches_partition (f : α → β) (cfg : EmbeddingQueueConfig)
    (hH hP : Bool) (orders : Nat → List Nat) (items : List α)
    (hB : 0 < cfg.batchSize)
    (hord : ∀ i c, (sliceChunks cfg.batchSize items)[i]? = some c →
      (orders i).Perm (List.range c.length)) :
    ∃ tr, processInBatches f cfg hH hP orders items = some (items.map f, tr)
      ∧ (sliceChunks cfg.batchSize items).length = jsCeilDiv items.length cfg.batchSize
      ∧ (items ≠ [] → ∃ last, (sliceChunks cfg.batchSize items).getLast? = some last ∧
          last.length = (if items.length % cfg.batchSize = 0 then cfg.batchSize
            else items.length % cfg.batchSize))
      ∧ (processedIndices tr).Perm (List.range items.length) := by
  have hord0 : ∀ i c, (sliceChunks cfg.batchSize items)[i]? = some c →
      (orders (0 + i)).Perm (List.range c.length) := by
    intro i c hc
    simpa using hord i c hc
  have hrun := runBatchesGo_eq f cfg hH hP orders items.length
    (jsCeilDiv items.length cfg.batchSize) (sliceChunks cfg.batchSize items) 0 0 hord0
  refine ⟨canonicalTrace f cfg hH hP orders items.length
      (jsCeilDiv items.length cfg.batchSize) (sliceChunks cfg.batchSize items) 0 0, ?_,
    sliceChunks_length hB items, fun hne => sliceChunks_getLast hB items hne, ?_⟩
  · rw [processInBatches, hrun, sliceChunks_join]
  · have hpi := processedIndices_canonicalTrace f cfg hH hP orders items.length
      (jsCeilDiv items.length cfg.batchSize) (sliceChunks cfg.batchSize items) 0 0 hord0
    rw [sliceChunks_join] at hpi
    rw [List.range_eq_range']
    exact hpi

/-- Completion orders used by the concrete runs below: batch 0 and 1 complete
out of input order, batch 2 has a single item. -/
def demoOrders : Nat → List Nat := fun b => if b = 2 then [0] else [1, 0]

theorem demoOrders_valid : ∀ i c, (sliceChunks 2 [10, 20, 30, 40, 50])[i]? = some c →
    (demoOrders i).Perm (List.range c.length) := by
  intro i c hc
  have hs : sliceChunks 2 [10, 20, 30, 40, 50] = [[10, 20], [30, 40], [50]] := rfl
  rw [hs] at hc
  match i with
  | 0 =>
    simp only [List.getElem?_cons_zero, Option.some.injEq] at hc
    subst hc
    decide
  | 1 =>
    simp only [List.getElem?_cons_succ, List.getElem?_cons_zero, Option.some.injEq] at hc
    subst hc
    decide
  | 2 =>
    simp only [List.getElem?_cons_succ, List.getElem?_cons_zero, Option.some.injEq] at hc
    subst hc
    decide
  | (i + 3) =>
    simp at hc

/-- Witness for C1 at a concrete run: 5 items, batch size 2, out-of-order
completion inside each batch. -/
theorem processInBatches_partition_witness :
    ∃ tr, processInBatches (fun n => n + 1) ⟨2, 3, 50, true, true⟩ true true
        demoOrders [10, 20, 30, 40, 50] = some ([11, 21, 31, 41, 51], tr)
      ∧ (sliceChunks 2 [10, 20, 30, 40, 50]).length = jsCeilDiv 5 2
      ∧ ([10, 20, 30, 40, 50] ≠ ([] : List Nat) → ∃ last,
          (sliceChunks 2 [10, 20, 30, 40, 50]).getLast? = some last ∧
          last.length = (if 5 % 2 = 0 then 2 else 5 % 2))
      ∧ (processedIndices tr).Perm (List.range 5) := by
  have h := processInBatches_partition (fun n => n + 1) ⟨2, 3, 50, true, true⟩ true true
    demoOrders [10, 20, 30, 40, 50] (by decide) demoOrders_valid
  simpa using h

/-- C2: in every run with a post-batch hook, when `checkpointAfterBatch` is
`true` the hook runs exactly once per batch, after that batch's items complete
and before the next batch's items start (the `cpShape` equation); when
`checkpointAfterBatch` is `false` the hook never runs. -/
theorem processInBatches_checkpoint (f : α → β) (cfg : EmbeddingQueueConfig)
    (hP : Bool) (orders : Nat → List Nat) (items : List α)
    (hB : 0 < cfg.batchSize)
    (hord : ∀ i c, (sliceChunks cfg.batchSize items)[i]? = some c →
      (orders i).Perm (List.range c.length)) :
    (cfg.checkpointAfterBatch = true →
      ∃ res tr, processInBatches f cfg true hP orders items = some (res, tr)
        ∧ checkpointCount tr = (sliceChunks cfg.batchSize items).length
        ∧ cpShape cfg.batchSize tr
            = cpCanonical cfg.batchSize (sliceChunks cfg.batchSize items) 0)
    ∧ (cfg.checkpointAfterBatch = false →
      ∃ res tr, processInBatches f cfg true hP orders items = some (res, tr)
        ∧ checkpointCount tr = 0) := by
  have hord0 : ∀ i c, (sliceChunks cfg.batchSize items)[i]? = some c →
      (orders (0 + i)).Perm (List.range c.length) := by
    intro i c hc
    simpa using hord i c hc
  have hrun := runBatchesGo_eq f cfg true hP orders items.length
    (jsCeilDiv items.length cfg.batchSize) (sliceChunks cfg.batchSize items) 0 0 hord0
  have hcount := checkpointCount_canonicalTrace f cfg true hP orders items.length
    (jsCeilDiv items.length cfg.batchSize) (sliceChunks cfg.batchSize items) 0 0
  constructor
  · intro hcp
    refine ⟨_, _, by rw [processInBatches, hrun], ?_, ?_⟩
    · rw [hcount, hcp]
      simp
    · have := cpShape_canonicalTrace f cfg hP orders items.length
        (jsCeilDiv items.length cfg.batchSize) hcp items.length items 0 0 le_rfl
        (by ring) hB hord0
      exact this
  · intro hcp
    refine ⟨_, _, by rw [processInBatches, hrun], ?_⟩
    rw [hcount, hcp]
    simp

/-- Witness for C2: the 5-item, batch-size-2 run with a hook; checkpointing
enabled gives one checkpoint per batch in canonical position, disabled gives
none. -/
theorem processInBatches_checkpoint_witness :
    (∃ res tr, processInBatches (fun n => n + 1) ⟨2, 3, 50, true, true⟩ true true
        demoOrders [10, 20, 30, 40, 50] = some (res, tr)
      ∧ checkpointCount tr = (sliceChunks 2 [10, 20, 30, 40, 50]).length
      ∧ cpShape 2 tr = cpCanonical 2 (sliceChunks 2 [10, 20, 30, 40, 50]) 0)
    ∧ (∃ res tr, processInBatches (fun n => n + 1) ⟨2, 3, 50, false, true⟩ true true
        demoOrders [10, 20, 30, 40, 50] = some (res, tr)
      ∧ checkpointCount tr = 0) := by
  constructor
  · exact (processInBatches_checkpoint (fun n => n + 1) ⟨2, 3, 50, true, true⟩ true
      demoOrders [10, 20, 30, 40, 50] (by decide) demoOrders_valid).1 rfl
  · exact (processInBatches_checkpoint (fun n => n + 1) ⟨2, 3, 50, false, true⟩ true
      demoOrders [10, 20, 30, 40, 50] (by decide) demoOrders_valid).2 rfl

/-- C8: in every run over a non-empty input with a progress callback, exactly
one progress event fires per batch, each event carries
`percent = round(processed / total * 100)`, the events are strictly increasing
in `processed` and non-decreasing in `percent`, and the final event reports
all items processed with `percent = 100`. -/
theorem processInBatches_progress_monotone (f : α → β) (cfg : EmbeddingQueueConfig)
    (hH : Bool) (orders : Nat → List Nat) (items : List α)
    (hB : 0 < cfg.batchSize) (hne : items ≠ [])
    (hord : ∀ i c, (sliceChunks cfg.batchSize items)[i]? = some c →
      (orders i).Perm (List.range c.length)) :
    ∃ res tr, processInBatches f cfg hH true orders items = some (res, tr)
      ∧ (progressEvents tr).length = jsCeilDiv items.length cfg.batchSize
      ∧ (∀ p ∈ progressEvents tr, p.total = items.length ∧
          p.percent = percentOf p.processed items.length)
      ∧ List.Chain' (fun p q => p.processed < q.processed ∧ p.percent ≤ q.percent)
          (progressEvents tr)
      ∧ (∃ pl, (progressEvents tr).getLast? = some pl ∧
          pl.processed = items.length ∧ pl.percent = 100) := by
  have hord0 : ∀ i c, (sliceChunks cfg.batchSize items)[i]? = some c →
      (orders (0 + i)).Perm (List.range c.length) := by
    intro i c hc
    simpa using hord i c hc
  have hrun := runBatchesGo_eq f cfg hH true orders items.length
    (jsCeilDiv items.length cfg.batchSize) (sliceChunks cfg.batchSize items) 0 0 hord0
  have hpe := progressEvents_canonicalTrace f cfg hH orders items.length
    (jsCeilDiv items.length cfg.batchSize) (sliceChunks cfg.batchSize items) 0 0
  refine ⟨_, _, by rw [processInBatches, hrun], ?_, ?_, ?_, ?_⟩
  · rw [hpe, canonicalProgress_length, sliceChunks_length hB]
  · rw [hpe]
    exact canonicalProgress_mem items.length (jsCeilDiv items.length cfg.batchSize)
      (sliceChunks cfg.batchSize items) 0 0
  · rw [hpe]
    exact canonicalProgress_chain items.length (jsCeilDiv items.length cfg.batchSize)
      (sliceChunks cfg.batchSize items) 0 0
      (sliceChunksGo_ne_nil items.length items)
  · have hcs : sliceChunks cfg.batchSize items ≠ [] := by
      intro h0
      apply hne
      have hj := sliceChunks_join (B := cfg.batchSize) items
      rw [h0] at hj
      simpa using hj.symm
    obtain ⟨pl, hlast, hproc, hperc⟩ := canonicalProgress_getLast items.length
      (jsCeilDiv items.length cfg.batchSize) (sliceChunks cfg.batchSize items) 0 0 hcs
    refine ⟨pl, by rw [hpe]; exact hlast, ?_, ?_⟩
    · rw [hproc, sliceChunks_join]
      omega
    · rw [hperc, sliceChunks_join]
      have hpos : 0 < items.length := List.length_pos.mpr hne
      have := percentOf_total hpos
      simpa using this

/-- Witness for C8: the 5-item, batch-size-2 run reports three progress
events ending at 100 percent. -/
theorem processInBatches_progress_monotone_witness :
    ∃ res tr, processInBatches (fun n => n + 1) ⟨2, 3, 50, true, true⟩ true true
        demoOrders [10, 20, 30, 40, 50] = some (res, tr)
      ∧ (progressEvents tr).length = jsCeilDiv 5 2
      ∧ (∀ p ∈ progressEvents tr, p.total = 5 ∧ p.percent = percentOf p.processed 5)
      ∧ List.Chain' (fun p q => p.processed < q.processed ∧ p.percent ≤ q.percent)
          (progressEvents tr)
      ∧ (∃ pl, (progressEvents tr).getLast? = some pl ∧
          pl.processed = 5 ∧ pl.percent = 100) := by
  have h := processInBatches_progress_monotone (fun n => n + 1) ⟨2, 3, 50, true, true⟩ true
    demoOrders [10, 20, 30, 40, 50] (by decide) (by decide) demoOrders_valid
  simpa using h

/-! ## Adaptive batch sizing -/

/-- `process.memoryUsage()` as observed by `getAdaptiveBatchSize`: heap
statistics are either unavailable (no Node/Bun heap API) or give the
`heapUsed / heapTotal` ratio. -/
inductive MemStats where
  | unavailable
  | available (heapUsedRatio : ℚ)
deriving DecidableEq

/-- `getAdaptiveBatchSize` from the source: above 85% / 70% / 50% heap use the
base size is scaled by 0.25 / 0.5 / 0.75 with `Math.max(10, Math.floor(...))`;
below 50% pressure, or without heap statistics, the base size is returned
unchanged. -/
def getAdaptiveBatchSize (baseBatchSize : Nat) (mem : MemStats) : Nat :=
  match mem with
  | .available r =>
    if r > 85 / 100 then max 10 (⌊(baseBatchSize : ℚ) * (25 / 100)⌋.toNat)
    else if r > 7 / 10 then max 10 (⌊(baseBatchSize : ℚ) * (5 / 10)⌋.toNat)
    else if r > 5 / 10 then max 10 (⌊(baseBatchSize : ℚ) * (75 / 100)⌋.toNat)
    else baseBatchSize
  | .unavailable => baseBatchSize

/-- C7 as stated is false: with a configured base size of 5 and 30% memory
pressure, `getAdaptiveBatchSize` returns 5, which is less than 10 (the `< 50%`
branch returns the base size without applying the floor). -/
theorem getAdaptiveBatchSize_counterexample :
    getAdaptiveBatchSize 5 (MemStats.available (3 / 10)) = 5 ∧
      getAdaptiveBatchSize 5 (MemStats.available (3 / 10)) < 10 := by
  have h : getAdaptiveBatchSize 5 (MemStats.available (3 / 10)) = 5 := by
    norm_num [getAdaptiveBatchSize]
  exact ⟨h, by rw [h]; omega⟩

/-- C7 amended: for every configured base batch size of at least 10, the
adaptive batch-size computation never returns a value less than 10, at any
memory-pressure level and also when heap statistics are unavailable. -/
theorem getAdaptiveBatchSize_min (baseBatchSize : Nat) (mem : MemStats)
    (hbase : 10 ≤ baseBatchSize) :
    10 ≤ getAdaptiveBatchSize baseBatchSize mem := by
  cases mem with
  | unavailable => exact hbase
  | available r =>
    rw [getAdaptiveBatchSize]
    split_ifs
    · exact le_max_left _ _
    · exact le_max_left _ _
    · exact le_max_left _ _
    · exact hbase

/-- Witness for the amended C7 at base 20 under 90% pressure. -/
theorem getAdaptiveBatchSize_min_witness :
    10 ≤ 20 ∧ 10 ≤ getAdaptiveBatchSize 20 (MemStats.available (9 / 10)) :=
  ⟨by decide, getAdaptiveBatchSize_min 20 (MemStats.available (9 / 10)) (by decide)⟩

/-! ## Ollama embedding service (Ollama.ts) -/

/-- An error from the embedding service, mirroring `OllamaError`. -/
structure OllamaError where
  reason : String
deriving DecidableEq

/-- A JavaScript number as far as embedding validation observes it: a finite
value, or one of the non-finite values `NaN` / `±Infinity`. -/
inductive JsNumber where
  | finite (v : ℚ)
  | nan
  | posInf
  | negInf
deriving DecidableEq

/-- `Number.isFinite`. -/
def JsNumber.isFinite : JsNumber → Bool
  | .finite _ => true
  | _ => false

/-- `EXPECTED_EMBEDDING_DIMENSION` for the `mxbai-embed-large` model. -/
def EXPECTED_EMBEDDING_DIMENSION : Nat := 1024

/-- `validateEmbedding`: fail on a zero-length vector, a wrong dimension, or
any non-finite entry; otherwise return the vector unchanged. -/
def validateEmbedding (embedding : List JsNumber) :
    Except OllamaError (List JsNumber) :=
  if embedding.length = 0 then
    .error ⟨"Invalid embedding: dimension 0 (expected "
      ++ toString EXPECTED_EMBEDDING_DIMENSION ++ ")"⟩
  else if embedding.length ≠ EXPECTED_EMBEDDING_DIMENSION then
    .error ⟨"Invalid embedding: dimension " ++ toString embedding.length
      ++ " (expected " ++ toString EXPECTED_EMBEDDING_DIMENSION ++ ")"⟩
  else if embedding.any (fun v => !v.isFinite) then
    .error ⟨"Invalid embedding: contains non-finite values (NaN or Infinity)"⟩
  else
    .ok embedding

/-- What one attempt of `embedSingle`'s HTTP interaction can observe: the
fetch throws, the response is not ok, the body is not JSON, or a vector is
returned. -/
inductive FetchOutcome where
  | connectFail (err : String)
  | httpError (body : String)
  | invalidJson
  | ok (embedding : List JsNumber)

/-- One un-retried attempt of `embedSingle`: perform the call, then validate
the embedding before returning it. -/
def attemptEmbed : FetchOutcome → Except OllamaError (List JsNumber)
  | .connectFail e => .error ⟨"Connection failed: " ++ e⟩
  | .httpError body => .error ⟨body⟩
  | .invalidJson => .error ⟨"Invalid JSON response"⟩
  | .ok emb => validateEmbedding emb

/-- `Effect.retry(Schedule.exponential(100ms).compose(Schedule.recurs(3)))`
around one attempt: on any failure, while retries remain, sleep `delay`,
double it and try again; the final error is the last attempt's.
`responses n` is the outcome of the `n`-th attempt; the second component
collects the backoff sleeps in milliseconds. -/
def retryEmbed (responses : Nat → FetchOutcome) :
    Nat → Nat → Nat → Except OllamaError (List JsNumber) × List Nat
  | 0, attempt, _ => (attemptEmbed (responses attempt), [])
  | r + 1, attempt, delay =>
    match attemptEmbed (responses attempt) with
    | .ok v => (.ok v, [])
    | .error _ =>
      let next := retryEmbed responses r (attempt + 1) (delay * 2)
      (next.fst, delay :: next.snd)

/-- `embedSingle`: the validated attempt under the retry schedule — 3 retries,
first backoff 100 ms. -/
def embedSingle (responses : Nat → FetchOutcome) :
    Except OllamaError (List JsNumber) × List Nat :=
  retryEmbed responses 3 0 100

theorem validateEmbedding_ok {e v : List JsNumber} (h : validateEmbedding e = .ok v) :
    v.length = EXPECTED_EMBEDDING_DIMENSION ∧ ∀ x ∈ v, x.isFinite = true := by
  rw [validateEmbedding] at h
  split_ifs at h with h1 h2 h3
  cases h
  refine ⟨by omega, ?_⟩
  intro x hx
  by_contra hfin
  have : e.any (fun v => !v.isFinite) = true :=
    List.any_eq_true.mpr ⟨x, hx, by simp [hfin]⟩
  exact h3 this

theorem attemptEmbed_ok {o : FetchOutcome} {v : List JsNumber}
    (h : attemptEmbed o = .ok v) :
    v.length = EXPECTED_EMBEDDING_DIMENSION ∧ ∀ x ∈ v, x.isFinite = true := by
  cases o with
  | connectFail e => cases h
  | httpError body => cases h
  | invalidJson => cases h
  | ok emb => exact validateEmbedding_ok h

theorem retryEmbed_ok (responses : Nat → FetchOutcome) :
    ∀ (r attempt delay : Nat) (v : List JsNumber) (sleeps : List Nat),
      retryEmbed responses r attempt delay = (.ok v, sleeps) →
      ∃ n, attemptEmbed (responses n) = .ok v := by
  intro r
  induction r with
  | zero =>
    intro attempt delay v sleeps h
    rw [retryEmbed] at h
    exact ⟨attempt, congrArg Prod.fst h⟩
  | succ r ih =>
    intro attempt delay v sleeps h
    rw [retryEmbed] at h
    cases hatt : attemptEmbed (responses attempt) with
    | ok w =>
      rw [hatt] at h
      simp only [Prod.mk.injEq] at h
      exact ⟨attempt, by rw [hatt, h.1]⟩
    | error e =>
      rw [hatt] at h
      simp only [Prod.mk.injEq] at h
      obtain ⟨h1, -⟩ := h
      obtain ⟨sl, hsl⟩ : ∃ sl, retryEmbed responses r (attempt + 1) (delay * 2)
          = (.ok v, sl) := ⟨_, by rw [← h1]⟩
      exact ih (attempt + 1) (delay * 2) v sl hsl

/-- C3: `validateEmbedding` rejects — with an `OllamaError` — every vector of
length zero, of length other than the configured dimension 1024, or with a
non-finite entry; and `embed` never returns such a vector to a caller: any
vector it returns has exactly dimension 1024 and only finite entries. -/
theorem embed_validates_shape :
    (∀ e : List JsNumber,
      (e.length = 0 ∨ e.length ≠ EXPECTED_EMBEDDING_DIMENSION ∨
        ∃ v ∈ e, v.isFinite = false) →
      ∃ err, validateEmbedding e = .error err)
    ∧ (∀ (responses : Nat → FetchOutcome) (v : List JsNumber) (sleeps : List Nat),
      embedSingle responses = (.ok v, sleeps) →
      v.length = EXPECTED_EMBEDDING_DIMENSION ∧ ∀ x ∈ v, x.isFinite = true) := by
  constructor
  · intro e he
    rw [validateEmbedding]
    split_ifs with h1 h2 h3
    · exact ⟨_, rfl⟩
    · exact ⟨_, rfl⟩
    · exact ⟨_, rfl⟩
    · exfalso
      rcases he with h | h | ⟨v, hv, hfin⟩
      · exact h1 h
      · exact h2 h
      · exact h3 (List.any_eq_true.mpr ⟨v, hv, by simp [hfin]⟩)
  · intro responses v sleeps h
    obtain ⟨n, hn⟩ := retryEmbed_ok responses 3 0 100 v sleeps h
    exact attemptEmbed_ok hn

/-- A well-formed 1024-dimensional embedding. -/
def goodEmbedding : List JsNumber :=
  List.replicate EXPECTED_EMBEDDING_DIMENSION (JsNumber.finite 0)

theorem validateEmbedding_goodEmbedding :
    validateEmbedding goodEmbedding = .ok goodEmbedding := by
  have hlen : goodEmbedding.length = EXPECTED_EMBEDDING_DIMENSION := by
    simp [goodEmbedding]
  have hany : goodEmbedding.any (fun v => !v.isFinite) = false := by
    rw [List.any_eq_false]
    intro x hx
    have := List.eq_of_mem_replicate hx
    subst this
    simp [JsNumber.isFinite]
  rw [validateEmbedding, hlen, hany]
  norm_num [EXPECTED_EMBEDDING_DIMENSION]

theorem retryEmbed_succ_error (responses : Nat → FetchOutcome)
    (r attempt delay : Nat) (err : OllamaError)
    (h : attemptEmbed (responses attempt) = .error err) :
    retryEmbed responses (r + 1) attempt delay =
      ((retryEmbed responses r (attempt + 1) (delay * 2)).fst,
        delay :: (retryEmbed responses r (attempt + 1) (delay * 2)).snd) := by
  rw [retryEmbed, h]

theorem retryEmbed_succ_ok (responses : Nat → FetchOutcome)
    (r attempt delay : Nat) (v : List JsNumber)
    (h : attemptEmbed (responses attempt) = .ok v) :
    retryEmbed responses (r + 1) attempt delay = (.ok v, []) := by
  rw [retryEmbed, h]

theorem embedSingle_good :
    embedSingle (fun _ => FetchOutcome.ok goodEmbedding) = (.ok goodEmbedding, []) := by
  have hat : attemptEmbed (FetchOutcome.ok goodEmbedding) = .ok goodEmbedding := by
    simp only [attemptEmbed]
    exact validateEmbedding_goodEmbedding
  rw [embedSingle, show (3 : Nat) = 2 + 1 from rfl,
    retryEmbed_succ_ok (fun _ => FetchOutcome.ok goodEmbedding) 2 0 100 goodEmbedding hat]

/-- Witness for C3: a vector containing `NaN` is rejected, and an accepted
vector has dimension 1024 with only finite entries. -/
theorem embed_validates_shape_witness :
    (∃ err, validateEmbedding [JsNumber.nan] = .error err)
    ∧ goodEmbedding.length = EXPECTED_EMBEDDING_DIMENSION
    ∧ (∀ x ∈ goodEmbedding, x.isFinite = true) := by
  have h2 := embed_validates_shape.2 (fun _ => FetchOutcome.ok goodEmbedding)
    goodEmbedding [] embedSingle_good
  exact ⟨embed_validates_shape.1 [JsNumber.nan]
    (Or.inr (Or.inr ⟨JsNumber.nan, List.mem_cons_self _ _, rfl⟩)), h2.1, h2.2⟩

/-- Attempt responses where the first reply fails validation (dimension 1)
and every later reply is a valid 1024-dimensional vector. -/
def mixedResponses : Nat → FetchOutcome := fun n =>
  if n = 0 then FetchOutcome.ok [JsNumber.finite 0] else FetchOutcome.ok goodEmbedding

/-- C4 as stated is false: the retry schedule wraps the whole attempt,
validation included.  Here the first response fails validation (dimension 1),
yet the call is retried — a 100 ms backoff sleep is recorded — and succeeds on
the second attempt instead of failing immediately without further attempts. -/
theorem embed_retries_validation_failure :
    (∃ err, attemptEmbed (mixedResponses 0) = .error err)
    ∧ embedSingle mixedResponses = (.ok goodEmbedding, [100]) := by
  have h0 : ∃ err, attemptEmbed (mixedResponses 0) = .error err := ⟨_, rfl⟩
  obtain ⟨err, herr⟩ := h0
  have h1 : attemptEmbed (mixedResponses 1) = .ok goodEmbedding := by
    have hr : mixedResponses 1 = FetchOutcome.ok goodEmbedding := rfl
    rw [hr]
    simp only [attemptEmbed]
    exact validateEmbedding_goodEmbedding
  refine ⟨⟨err, herr⟩, ?_⟩
  rw [embedSingle, show (3 : Nat) = 2 + 1 from rfl,
    retryEmbed_succ_error mixedResponses 2 0 100 err herr,
    show (2 : Nat) = 1 + 1 from rfl,
    retryEmbed_succ_ok mixedResponses 1 1 200 goodEmbedding h1]

theorem retryEmbed_sleeps_shape (responses : Nat → FetchOutcome) :
    ∀ (r attempt delay : Nat), ∃ k, k ≤ r ∧
      (retryEmbed responses r attempt delay).snd
        = (List.range k).map (fun n => delay * 2 ^ n) := by
  intro r
  induction r with
  | zero => intro attempt delay; exact ⟨0, le_rfl, rfl⟩
  | succ r ih =>
    intro attempt delay
    cases hatt : attemptEmbed (responses attempt) with
    | ok v =>
      refine ⟨0, by omega, ?_⟩
      rw [retryEmbed_succ_ok responses r attempt delay v hatt]
      rfl
    | error e =>
      obtain ⟨k, hk, hshape⟩ := ih (attempt + 1) (delay * 2)
      refine ⟨k + 1, by omega, ?_⟩
      rw [retryEmbed_succ_error responses r attempt delay e hatt]
      show delay :: (retryEmbed responses r (attempt + 1) (delay * 2)).snd = _
      rw [hshape, List.range_succ_eq_map, List.map_cons, List.map_map]
      have hhead : delay = delay * 2 ^ 0 := by ring
      rw [← hhead]
      congr 1
      apply List.map_congr_left
      intro n _
      show delay * 2 * 2 ^ n = delay * 2 ^ (n + 1)
      rw [pow_succ]
      ring

theorem retryEmbed_all_fail (responses : Nat → FetchOutcome) :
    ∀ (r attempt delay : Nat),
      (∀ n, attempt ≤ n → n ≤ attempt + r → ∃ err, attemptEmbed (responses n) = .error err) →
      (∃ err, (retryEmbed responses r attempt delay).fst = .error err)
        ∧ (retryEmbed responses r attempt delay).snd
            = (List.range r).map (fun n => delay * 2 ^ n) := by
  intro r
  induction r with
  | zero =>
    intro attempt delay h
    obtain ⟨err, herr⟩ := h attempt le_rfl (by omega)
    exact ⟨⟨err, herr⟩, rfl⟩
  | succ r ih =>
    intro attempt delay h
    obtain ⟨err, herr⟩ := h attempt le_rfl (by omega)
    obtain ⟨⟨err', herr'⟩, hsh⟩ := ih (attempt + 1) (delay * 2)
      (fun n hn1 hn2 => h n (by omega) (by omega))
    rw [retryEmbed_succ_error responses r attempt delay err herr]
    refine ⟨⟨err', herr'⟩, ?_⟩
    show delay :: (retryEmbed responses r (attempt + 1) (delay * 2)).snd = _
    rw [hsh, List.range_succ_eq_map, List.map_cons, List.map_map]
    have hhead : delay = delay * 2 ^ 0 := by ring
    rw [← hhead]
    congr 1
    apply List.map_congr_left
    intro n _
    show delay * 2 * 2 ^ n = delay * 2 ^ (n + 1)
    rw [pow_succ]
    ring

/-- C4 amended: `embed` retries on every failed attempt — responses that fail
validation included — with exponential backoff starting at 100 ms and doubling
each retry, capped at 3 retries; when all attempts fail, the call fails with
the last attempt's error after backoffs of exactly 100, 200 and 400 ms. -/
theorem embed_retry_policy (responses : Nat → FetchOutcome)
    (hfail : ∃ err, attemptEmbed (responses 0) = .error err) :
    (embedSingle responses).snd ≠ []
    ∧ (embedSingle responses).snd.length ≤ 3
    ∧ (embedSingle responses).snd
        = (List.range (embedSingle responses).snd.length).map (fun n => 100 * 2 ^ n)
    ∧ ((∀ n, n ≤ 3 → ∃ err, attemptEmbed (responses n) = .error err) →
        (∃ err, (embedSingle responses).fst = .error err)
          ∧ (embedSingle responses).snd = [100, 200, 400]) := by
  obtain ⟨err, herr⟩ := hfail
  have hfirst : embedSingle responses =
      ((retryEmbed responses 2 1 200).fst, 100 :: (retryEmbed responses 2 1 200).snd) := by
    rw [embedSingle, show (3 : Nat) = 2 + 1 from rfl,
      retryEmbed_succ_error responses 2 0 100 err herr]
  obtain ⟨k, hk, hshape⟩ := retryEmbed_sleeps_shape responses 3 0 100
  have hsnd : (embedSingle responses).snd = (List.range k).map (fun n => 100 * 2 ^ n) := hshape
  refine ⟨?_, ?_, ?_, ?_⟩
  · rw [hfirst]
    simp
  · rw [hsnd]
    simp
    omega
  · rw [hsnd]
    simp
  · intro hall
    have := retryEmbed_all_fail responses 3 0 100
      (fun n hn1 hn2 => hall n (by omega))
    refine ⟨this.1, ?_⟩
    rw [show (embedSingle responses).snd = (retryEmbed responses 3 0 100).snd from rfl,
      this.2]
    rfl

/-- Witness for the amended C4: when the service is unreachable on every
attempt, `embed` fails after backoffs of 100, 200 and 400 ms. -/
theorem embed_retry_policy_witness :
    (∃ err, (embedSingle (fun _ => FetchOutcome.connectFail "down")).fst = .error err)
    ∧ (embedSingle (fun _ => FetchOutcome.connectFail "down")).snd = [100, 200, 400] := by
  have h := embed_retry_policy (fun _ => FetchOutcome.connectFail "down") ⟨_, rfl⟩
  exact h.2.2.2 (fun n _ => ⟨_, rfl⟩)

/-! ## String primitives (JavaScript semantics, ASCII) -/

/-- Does `hay` start with `needle`?  (`strStartsWith needle hay`.) -/
def strStartsWith : List Char → List Char → Bool
  | [], _ => true
  | _ :: _, [] => false
  | b :: bs, a :: as => b = a && strStartsWith bs as

/-- Does `hay` contain `needle` as a contiguous substring? -/
def strContainsAux (needle : List Char) : List Char → Bool
  | [] => strStartsWith needle []
  | a :: as => strStartsWith needle (a :: as) || strContainsAux needle as

/-- `String.prototype.includes`. -/
def jsIncludes (s sub : String) : Bool := strContainsAux sub.data s.data

/-- `String.prototype.toUpperCase` (ASCII). -/
def jsToUpper (s : String) : String := ⟨s.data.map Char.toUpper⟩

/-- `String.prototype.toLowerCase` (ASCII). -/
def jsToLower (s : String) : String := ⟨s.data.map Char.toLower⟩

/-- `String.prototype.trim`. -/
def jsTrim (s : String) : String :=
  ⟨((s.data.dropWhile Char.isWhitespace).reverse.dropWhile Char.isWhitespace).reverse⟩

/-! ## Duplicate judge and concept curation (AutoTagger) -/

/-- A proposed taxonomy concept from the LLM, mirroring `ProposedConcept`. -/
structure ProposedConcept where
  id : String
  prefLabel : String
  altLabels : Option (List String)
  definition : Option String
deriving DecidableEq

/-- An existing concept as returned by `findSimilarConcepts`. -/
structure SimilarConcept where
  id : String
  prefLabel : String
  definition : Option String
deriving DecidableEq

/-- How a judge call can end.  Every unavailability path of
`llmJudgeDuplicate` — missing gateway key, thrown network error, non-ok HTTP
response (and the `Effect.tryPromise` catch) — produces the same degraded
result, so they share one constructor; otherwise the model answered with free
text. -/
inductive JudgeCall where
  | unavailable
  | answer (text : String)
deriving DecidableEq

/-- `{ isDuplicate, available }` as returned by `llmJudgeDuplicate`. -/
structure JudgeVerdict where
  isDuplicate : Bool
  available : Bool
deriving DecidableEq

/-- The decision logic of `llmJudgeDuplicate`: an unavailable judge yields
`{isDuplicate: false, available: false}`; an answer is trimmed, upper-cased
and searched for the literal token `DUPLICATE`. -/
def judgeDecision : JudgeCall → JudgeVerdict
  | .unavailable => ⟨false, false⟩
  | .answer t => ⟨jsIncludes (jsToUpper (jsTrim t)) "DUPLICATE", true⟩

/-- An error from the taxonomy store, mirroring `TaxonomyError`. -/
structure TaxonomyError where
  reason : String
deriving DecidableEq

/-- The enrichment-level error `autoAcceptProposals` maps its failures to. -/
structure EnrichmentError where
  message : String
deriving DecidableEq

/-- Record passed to `taxonomy.addConcept`. -/
structure ConceptRecord where
  id : String
  prefLabel : String
  altLabels : Option (List String)
  definition : Option String
deriving DecidableEq

/-- Observable persistence and log actions of `autoAcceptProposals`. -/
inductive TaxEv where
  | addConcept (id : String)
  | storeEmbedding (id : String)
  | logRejected (id : String)
  | logAccepted (id : String)
deriving DecidableEq

/-- The collaborators of `autoAcceptProposals`, as response oracles: the
embedding service, `findSimilarConcepts`, the judge call, and the two
persistence operations. -/
structure TaxEnv where
  embed : String → Except OllamaError (List JsNumber)
  findSimilarConcepts : List JsNumber → ℚ → Except TaxonomyError (List SimilarConcept)
  judgeCall : ProposedConcept → SimilarConcept → JudgeCall
  addConcept : ConceptRecord → Except TaxonomyError Unit
  storeConceptEmbedding : String → List JsNumber → Except TaxonomyError Unit

/-- The proposal text sent for embedding; an empty definition string is falsy
in JavaScript and falls back to the label alone. -/
def proposalText (p : ProposedConcept) : String :=
  match p.definition with
  | some d => if d = "" then p.prefLabel else p.prefLabel ++ ": " ++ d
  | none => p.prefLabel

/-- The reject decision for one proposal: similar concepts were found and the
LLM judge confirms the top candidate is a duplicate. -/
def rejectDecision (env : TaxEnv) (p : ProposedConcept)
    (similar : List SimilarConcept) : Bool :=
  match similar.head? with
  | some top => (judgeDecision (env.judgeCall p top)).isDuplicate
  | none => false

/-- The loop of `autoAcceptProposals`: embed each proposal, retrieve similar
concepts at threshold 0.75, judge the top candidate, and either reject or
persist (`addConcept`, then `storeConceptEmbedding`); returns the accepted and
rejected counts together with the persistence/log trace. -/
def autoAcceptGo (env : TaxEnv) :
    List ProposedConcept → Except (OllamaError ⊕ TaxonomyError) (Nat × Nat × List TaxEv)
  | [] => .ok (0, 0, [])
  | p :: rest =>
    match env.embed (proposalText p) with
    | .error e => .error (.inl e)
    | .ok embedding =>
      match env.findSimilarConcepts embedding (75 / 100 : ℚ) with
      | .error e => .error (.inr e)
      | .ok similar =>
        if rejectDecision env p similar then
          match autoAcceptGo env rest with
          | .error e => .error e
          | .ok (a, r, evs) => .ok (a, r + 1, TaxEv.logRejected p.id :: evs)
        else
          match env.addConcept ⟨p.id, p.prefLabel, p.altLabels, p.definition⟩ with
          | .error e => .error (.inr e)
          | .ok _ =>
            match env.storeConceptEmbedding p.id embedding with
            | .error e => .error (.inr e)
            | .ok _ =>
              match autoAcceptGo env rest with
              | .error e => .error e
              | .ok (a, r, evs) =>
                .ok (a + 1, r, TaxEv.addConcept p.id :: TaxEv.storeEmbedding p.id ::
                  TaxEv.logAccepted p.id :: evs)

/-- The `Effect.mapError` wrapper at the end of `autoAcceptProposals`. -/
def wrapAutoAcceptError : OllamaError ⊕ TaxonomyError → EnrichmentError
  | .inl e => ⟨"Auto-accept failed: " ++ e.reason⟩
  | .inr e => ⟨"Auto-accept failed: " ++ e.reason⟩

/-- `autoAcceptProposals`. -/
def autoAcceptProposals (env : TaxEnv) (proposals : List ProposedConcept) :
    Except EnrichmentError (Nat × Nat × List TaxEv) :=
  match autoAcceptGo env proposals with
  | .error e => .error (wrapAutoAcceptError e)
  | .ok out => .ok out

/-- The accept branch for one proposal, followed by the rest of the run. -/
def acceptOutcome (env : TaxEnv) (p : ProposedConcept) (embedding : List JsNumber)
    (rest : List ProposedConcept) :
    Except (OllamaError ⊕ TaxonomyError) (Nat × Nat × List TaxEv) :=
  match env.addConcept ⟨p.id, p.prefLabel, p.altLabels, p.definition⟩ with
  | .error e => .error (.inr e)
  | .ok _ =>
    match env.storeConceptEmbedding p.id embedding with
    | .error e => .error (.inr e)
    | .ok _ =>
      match autoAcceptGo env rest with
      | .error e => .error e
      | .ok (a, r, evs) =>
        .ok (a + 1, r, TaxEv.addConcept p.id :: TaxEv.storeEmbedding p.id ::
          TaxEv.logAccepted p.id :: evs)

/-- The reject branch for one proposal, followed by the rest of the run. -/
def rejectOutcome (env : TaxEnv) (p : ProposedConcept)
    (rest : List ProposedConcept) :
    Except (OllamaError ⊕ TaxonomyError) (Nat × Nat × List TaxEv) :=
  match autoAcceptGo env rest with
  | .error e => .error e
  | .ok (a, r, evs) => .ok (a, r + 1, TaxEv.logRejected p.id :: evs)

theorem autoAcceptGo_cons (env : TaxEnv) (p : ProposedConcept)
    (rest : List ProposedConcept) (embedding : List JsNumber)
    (similar : List SimilarConcept)
    (hembed : env.embed (proposalText p) = .ok embedding)
    (hsim : env.findSimilarConcepts embedding (75 / 100 : ℚ) = .ok similar) :
    autoAcceptGo env (p :: rest) =
      if rejectDecision env p similar then rejectOutcome env p rest
      else acceptOutcome env p embedding rest := by
  rw [autoAcceptGo]
  simp only [hembed, hsim]
  split_ifs <;> rfl

/-- C5: fail-open deduplication.  When a proposal has a similarity candidate
at the 0.75 retrieval threshold but the duplicate judge cannot be consulted
(its verdict has `available = false`), the proposal is not rejected: it is
accepted and persisted (`addConcept` then `storeConceptEmbedding`), and the
judge failure never surfaces as a failure of the run — the run continues with
the remaining proposals exactly as if the concept were novel. -/
theorem dedup_fail_open (env : TaxEnv) (p : ProposedConcept)
    (rest : List ProposedConcept) (embedding : List JsNumber)
    (similar : List SimilarConcept) (top : SimilarConcept)
    (hembed : env.embed (proposalText p) = .ok embedding)
    (hsim : env.findSimilarConcepts embedding (75 / 100 : ℚ) = .ok similar)
    (htop : similar.head? = some top)
    (hjudge : (judgeDecision (env.judgeCall p top)).available = false)
    (hadd : env.addConcept ⟨p.id, p.prefLabel, p.altLabels, p.definition⟩ = .ok ())
    (hstore : env.storeConceptEmbedding p.id embedding = .ok ()) :
    autoAcceptGo env (p :: rest) =
      (match autoAcceptGo env rest with
       | .error e => .error e
       | .ok (a, r, evs) => .ok (a + 1, r, TaxEv.addConcept p.id ::
           TaxEv.storeEmbedding p.id :: TaxEv.logAccepted p.id :: evs)) := by
  have hdup : (judgeDecision (env.judgeCall p top)).isDuplicate = false := by
    cases hc : env.judgeCall p top with
    | unavailable => rfl
    | answer t =>
      rw [hc] at hjudge
      simp [judgeDecision] at hjudge
  have hrd : rejectDecision env p similar = false := by
    rw [rejectDecision, htop]
    exact hdup
  rw [autoAcceptGo_cons env p rest embedding similar hembed hsim, hrd]
  simp only [Bool.false_eq_true, if_false]
  rw [acceptOutcome]
  simp only [hadd, hstore]

/-- Environment for the fail-open witness: a 0.82-similar candidate exists but
the judge is unreachable; persistence succeeds. -/
def envFailOpen : TaxEnv where
  embed := fun _ => .ok [JsNumber.finite 1]
  findSimilarConcepts := fun _ _ => .ok [⟨"programming/react", "React", none⟩]
  judgeCall := fun _ _ => JudgeCall.unavailable
  addConcept := fun _ => .ok ()
  storeConceptEmbedding := fun _ _ => .ok ()

/-- A structurally valid demo proposal. -/
def pDemo : ProposedConcept :=
  ⟨"programming/server-components", "Server Components", none, none⟩

/-- Witness for C5: with the judge unreachable, the single proposal is
accepted and persisted and the run succeeds. -/
theorem dedup_fail_open_witness :
    autoAcceptGo envFailOpen [pDemo] =
      .ok (1, 0, [TaxEv.addConcept pDemo.id, TaxEv.storeEmbedding pDemo.id,
        TaxEv.logAccepted pDemo.id]) := by
  have h := dedup_fail_open envFailOpen pDemo [] [JsNumber.finite 1]
    [⟨"programming/react", "React", none⟩] ⟨"programming/react", "React", none⟩
    rfl rfl rfl rfl rfl rfl
  rw [h]
  rfl

theorem rejectDecision_none (env : TaxEnv) (p : ProposedConcept)
    (similar : List SimilarConcept) (htop : similar.head? = none) :
    rejectDecision env p similar = false := by
  rw [rejectDecision, htop]

theorem rejectDecision_some (env : TaxEnv) (p : ProposedConcept)
    (similar : List SimilarConcept) (top : SimilarConcept)
    (htop : similar.head? = some top) :
    rejectDecision env p similar = (judgeDecision (env.judgeCall p top)).isDuplicate := by
  rw [rejectDecision, htop]

/-- C6: the only path to REJECT is a judge answer whose trimmed, upper-cased
text contains the literal token `DUPLICATE`; every other outcome of the judge
call — any other answer text, or no answer — leads to the acceptance branch
for the proposal. -/
theorem judge_duplicate_only_reject :
    (∀ (env : TaxEnv) (p : ProposedConcept) (similar : List SimilarConcept),
      rejectDecision env p similar = true ↔
        ∃ top t, similar.head? = some top ∧ env.judgeCall p top = JudgeCall.answer t ∧
          jsIncludes (jsToUpper (jsTrim t)) "DUPLICATE" = true)
    ∧ (∀ (env : TaxEnv) (p : ProposedConcept) (rest : List ProposedConcept)
        (embedding : List JsNumber) (similar : List SimilarConcept),
      env.embed (proposalText p) = .ok embedding →
      env.findSimilarConcepts embedding (75 / 100 : ℚ) = .ok similar →
      rejectDecision env p similar = false →
      autoAcceptGo env (p :: rest) = acceptOutcome env p embedding rest) := by
  constructor
  · intro env p similar
    constructor
    · intro h
      cases htop : similar.head? with
      | none =>
        rw [rejectDecision_none env p similar htop] at h
        cases h
      | some top =>
        rw [rejectDecision_some env p similar top htop] at h
        cases hc : env.judgeCall p top with
        | unavailable =>
          rw [hc] at h
          simp [judgeDecision] at h
        | answer t =>
          rw [hc] at h
          refine ⟨top, t, rfl, hc, ?_⟩
          simpa [judgeDecision] using h
    · rintro ⟨top, t, htop, hc, hinc⟩
      rw [rejectDecision_some env p similar top htop, hc]
      simpa [judgeDecision] using hinc
  · intro env p rest embedding similar hembed hsim hrd
    rw [autoAcceptGo_cons env p rest embedding similar hembed hsim, hrd]
    simp

/-- The top similarity candidate used in the judge witnesses. -/
def topDemo : SimilarConcept := ⟨"programming/react", "React", none⟩

/-- Judge answers a sloppy lowercase confirmation: still a DUPLICATE match. -/
def envDup : TaxEnv where
  embed := fun _ => .ok [JsNumber.finite 1]
  findSimilarConcepts := fun _ _ => .ok [topDemo]
  judgeCall := fun _ _ => JudgeCall.answer "  duplicate "
  addConcept := fun _ => .ok ()
  storeConceptEmbedding := fun _ _ => .ok ()

/-- Judge answers DISTINCT: the proposal is accepted. -/
def envDistinct : TaxEnv :=
  { envDup with judgeCall := fun _ _ => JudgeCall.answer "DISTINCT" }

/-- Witness for C6: a lowercase "duplicate" answer rejects; a DISTINCT answer
takes the acceptance branch. -/
theorem judge_duplicate_only_reject_witness :
    rejectDecision envDup pDemo [topDemo] = true
    ∧ autoAcceptGo envDistinct [pDemo]
        = acceptOutcome envDistinct pDemo [JsNumber.finite 1] [] := by
  constructor
  · exact (judge_duplicate_only_reject.1 envDup pDemo [topDemo]).mpr
      ⟨topDemo, "  duplicate ", rfl, rfl, by decide⟩
  · exact judge_duplicate_only_reject.2 envDistinct pDemo [] [JsNumber.finite 1] [topDemo]
      rfl rfl (by decide)

theorem autoAcceptGo_counts (env : TaxEnv) :
    ∀ (ps : List ProposedConcept) (a r : Nat) (evs : List TaxEv),
      autoAcceptGo env ps = .ok (a, r, evs) →
      a + r = ps.length
        ∧ evs.countP (fun e => match e with | TaxEv.addConcept _ => true | _ => false) = a
        ∧ evs.countP (fun e => match e with | TaxEv.storeEmbedding _ => true | _ => false) = a
        ∧ evs.countP (fun e => match e with | TaxEv.logAccepted _ => true | _ => false) = a
        ∧ evs.countP (fun e => match e with | TaxEv.logRejected _ => true | _ => false) = r := by
  intro ps
  induction ps with
  | nil =>
    intro a r evs h
    rw [autoAcceptGo] at h
    simp only [Except.ok.injEq, Prod.mk.injEq] at h
    obtain ⟨ha, hr, hevs⟩ := h
    subst ha
    subst hr
    subst hevs
    simp
  | cons p rest ih =>
    intro a r evs h
    rw [autoAcceptGo] at h
    cases hembed : env.embed (proposalText p) with
    | error e =>
      simp only [hembed] at h
      exact Except.noConfusion h
    | ok emb =>
      simp only [hembed] at h
      cases hsim : env.findSimilarConcepts emb (75 / 100 : ℚ) with
      | error e =>
        simp only [hsim] at h
        exact Except.noConfusion h
      | ok similar =>
        simp only [hsim] at h
        by_cases hrd : rejectDecision env p similar = true
        · rw [if_pos hrd] at h
          cases hrest : autoAcceptGo env rest with
          | error e =>
            simp only [hrest] at h
            exact Except.noConfusion h
          | ok out =>
            obtain ⟨a', r', evs'⟩ := out
            simp only [hrest, Except.ok.injEq, Prod.mk.injEq] at h
            obtain ⟨ha, hr, hevs⟩ := h
            subst ha
            subst hr
            subst hevs
            obtain ⟨ih1, ih2, ih3, ih4, ih5⟩ := ih a' r' evs' hrest
            refine ⟨by simp only [List.length_cons]; omega, ?_, ?_, ?_, ?_⟩ <;>
              simp [List.countP_cons, ih2, ih3, ih4, ih5]
        · rw [if_neg hrd] at h
          cases hadd : env.addConcept ⟨p.id, p.prefLabel, p.altLabels, p.definition⟩ with
          | error e =>
            simp only [hadd] at h
            exact Except.noConfusion h
          | ok u =>
            cases u
            simp only [hadd] at h
            cases hstore : env.storeConceptEmbedding p.id emb with
            | error e =>
              simp only [hstore] at h
              exact Except.noConfusion h
            | ok u2 =>
              cases u2
              simp only [hstore] at h
              cases hrest : autoAcceptGo env rest with
              | error e =>
                simp only [hrest] at h
                exact Except.noConfusion h
              | ok out =>
                obtain ⟨a', r', evs'⟩ := out
                simp only [hrest, Except.ok.injEq, Prod.mk.injEq] at h
                obtain ⟨ha, hr, hevs⟩ := h
                subst ha
                subst hr
                subst hevs
                obtain ⟨ih1, ih2, ih3, ih4, ih5⟩ := ih a' r' evs' hrest
                refine ⟨by simp only [List.length_cons]; omega, ?_, ?_, ?_, ?_⟩ <;>
                  simp [List.countP_cons, ih2, ih3, ih4, ih5]

/-- C10: on every successful run of `autoAcceptProposals`, each proposal is
counted exactly once (`accepted + rejected` equals the number of proposals),
and persistence matches acceptance exactly: one `addConcept` call and one
`storeConceptEmbedding` call (and one acceptance log) per accepted proposal,
none for a rejected one, which gets exactly one rejection log. -/
theorem autoAcceptProposals_counts (env : TaxEnv)
    (ps : List ProposedConcept) (a r : Nat) (evs : List TaxEv)
    (h : autoAcceptProposals env ps = .ok (a, r, evs)) :
    a + r = ps.length
      ∧ evs.countP (fun e => match e with | TaxEv.addConcept _ => true | _ => false) = a
      ∧ evs.countP (fun e => match e with | TaxEv.storeEmbedding _ => true | _ => false) = a
      ∧ evs.countP (fun e => match e with | TaxEv.logAccepted _ => true | _ => false) = a
      ∧ evs.countP (fun e => match e with | TaxEv.logRejected _ => true | _ => false) = r := by
  rw [autoAcceptProposals] at h
  cases hgo : autoAcceptGo env ps with
  | error e =>
    rw [hgo] at h
    exact Except.noConfusion h
  | ok out =>
    rw [hgo] at h
    simp only [Except.ok.injEq] at h
    subst h
    exact autoAcceptGo_counts env ps a r evs hgo

/-- Second demo proposal, accepted in the C10 witness run. -/
def pDemo2 : ProposedConcept :=
  ⟨"education/spaced-repetition", "Spaced Repetition", none, some "Interval-based review."⟩

/-- Judge confirms a duplicate for the first demo proposal only. -/
def envMixed : TaxEnv where
  embed := fun _ => .ok [JsNumber.finite 1]
  findSimilarConcepts := fun _ _ => .ok [topDemo]
  judgeCall := fun p _ =>
    if p.id = "programming/server-components" then JudgeCall.answer "DUPLICATE"
    else JudgeCall.unavailable
  addConcept := fun _ => .ok ()
  storeConceptEmbedding := fun _ _ => .ok ()

/-- Witness for C10: a run with one rejected and one accepted proposal has
matching counts and persistence events. -/
theorem autoAcceptProposals_counts_witness :
    1 + 1 = ([pDemo, pDemo2] : List ProposedConcept).length
      ∧ ([TaxEv.logRejected pDemo.id, TaxEv.addConcept pDemo2.id,
          TaxEv.storeEmbedding pDemo2.id, TaxEv.logAccepted pDemo2.id].countP
          (fun e => match e with | TaxEv.addConcept _ => true | _ => false)) = 1
      ∧ ([TaxEv.logRejected pDemo.id, TaxEv.addConcept pDemo2.id,
          TaxEv.storeEmbedding pDemo2.id, TaxEv.logAccepted pDemo2.id].countP
          (fun e => match e with | TaxEv.storeEmbedding _ => true | _ => false)) = 1
      ∧ ([TaxEv.logRejected pDemo.id, TaxEv.addConcept pDemo2.id,
          TaxEv.storeEmbedding pDemo2.id, TaxEv.logAccepted pDemo2.id].countP
          (fun e => match e with | TaxEv.logAccepted _ => true | _ => false)) = 1
      ∧ ([TaxEv.logRejected pDemo.id, TaxEv.addConcept pDemo2.id,
          TaxEv.storeEmbedding pDemo2.id, TaxEv.logAccepted pDemo2.id].countP
          (fun e => match e with | TaxEv.logRejected _ => true | _ => false)) = 1 :=
  autoAcceptProposals_counts envMixed [pDemo, pDemo2] 1 1
    [TaxEv.logRejected pDemo.id, TaxEv.addConcept pDemo2.id,
      TaxEv.storeEmbedding pDemo2.id, TaxEv.logAccepted pDemo2.id] rfl

/-! ## Concept identifier validation (isValidConceptId) -/

/-- `String.prototype.split` with a single-character separator, on the
character list. -/
def splitOnChar (sep : Char) : List Char → List (List Char)
  | [] => [[]]
  | c :: rest =>
    if c = sep then [] :: splitOnChar sep rest
    else
      match splitOnChar sep rest with
      | [] => [[c]]
      | w :: ws => (c :: w) :: ws

/-- `s.split(sep)` on strings. -/
def jsSplit (s : String) (sep : Char) : List String :=
  (splitOnChar sep s.data).map (fun cs => ⟨cs⟩)

/-- The fixed whitelist of parent categories. -/
def validParents : List String :=
  ["programming", "education", "design", "business", "meta", "psychology",
    "research", "writing"]

/-- `isValidConceptId` from the source, check by check: exactly one slash, a
whitelisted parent, a child without spaces, at most 30 characters, not
`"concept"`/`"new"`, the whole id lowercase, and at most 4 hyphen-words. -/
def isValidConceptId (id : String) : Bool :=
  if !(jsIncludes id "/") then false
  else if (jsSplit id '/').length ≠ 2 then false
  else if !(validParents.contains ((jsSplit id '/').getD 0 "")) then false
  else if jsIncludes ((jsSplit id '/').getD 1 "") " " then false
  else if ((jsSplit id '/').getD 1 "").length > 30 then false
  else if (jsSplit id '/').getD 1 "" = "concept" ∨ (jsSplit id '/').getD 1 "" = "new" then
    false
  else if id ≠ jsToLower id then false
  else if (jsSplit ((jsSplit id '/').getD 1 "") '-').length > 4 then false
  else true

/-- Word count of a character list under `/\s+/` splitting, tracking whether
the scan is inside a word. -/
def countWordsAux : List Char → Bool → Nat
  | [], _ => 0
  | c :: rest, inWord =>
    if c.isWhitespace then countWordsAux rest false
    else (if inWord then 0 else 1) + countWordsAux rest true

/-- `s.split(/\s+/).length` for an already-trimmed string (an empty string
splits to `[""]`, length 1). -/
def jsWordCount (s : String) : Nat :=
  if s.data.isEmpty then 1 else countWordsAux s.data false

/-- `validateProposedConcepts`: drop entries with falsy id or label, invalid
concept ids, or labels of more than 5 words. -/
def validateProposedConcepts (concepts : Option (List ProposedConcept)) :
    List ProposedConcept :=
  match concepts with
  | none => []
  | some cs => cs.filter fun c =>
      if c.id = "" || c.prefLabel = "" then false
      else if !(isValidConceptId c.id) then false
      else if jsWordCount (jsTrim c.prefLabel) > 5 then false
      else true

theorem splitOnChar_ne_nil (sep : Char) : ∀ l : List Char, splitOnChar sep l ≠ [] := by
  intro l
  induction l with
  | nil => simp [splitOnChar]
  | cons c rest ih =>
    rw [splitOnChar]
    split_ifs
    · simp
    · cases hs : splitOnChar sep rest with
      | nil => exact absurd hs ih
      | cons w ws => simp

theorem splitOnChar_single (sep : Char) :
    ∀ l : List Char, sep ∉ l → splitOnChar sep l = [l] := by
  intro l
  induction l with
  | nil => intro _; rfl
  | cons c rest ih =>
    intro h
    have hc : ¬c = sep := fun he => h (he ▸ List.mem_cons_self c rest)
    have hrest : sep ∉ rest := fun hm => h (List.mem_cons_of_mem _ hm)
    rw [splitOnChar, if_neg hc, ih hrest]

theorem splitOnChar_single_rev (sep : Char) :
    ∀ (l w : List Char), splitOnChar sep l = [w] → l = w ∧ sep ∉ l := by
  intro l
  induction l with
  | nil =>
    intro w h
    rw [splitOnChar] at h
    simp only [List.cons.injEq, and_true] at h
    exact ⟨h, by simp⟩
  | cons c rest ih =>
    intro w h
    rw [splitOnChar] at h
    split_ifs at h with hc
    · simp only [List.cons.injEq] at h
      exact absurd h.2 (splitOnChar_ne_nil sep rest)
    · cases hs : splitOnChar sep rest with
      | nil => exact absurd hs (splitOnChar_ne_nil sep rest)
      | cons w' ws =>
        rw [hs] at h
        simp only [List.cons.injEq] at h
        obtain ⟨hw, hws⟩ := h
        subst hws
        obtain ⟨hrest, hmem⟩ := ih w' (by rw [hs])
        subst hrest
        refine ⟨hw.symm ▸ rfl, ?_⟩
        intro hm
        rcases List.mem_cons.mp hm with h1 | h1
        · exact hc h1.symm
        · exact hmem h1

theorem splitOnChar_pair (sep : Char) :
    ∀ (p c : List Char), sep ∉ p → sep ∉ c →
      splitOnChar sep (p ++ sep :: c) = [p, c] := by
  intro p
  induction p with
  | nil =>
    intro c _ hc
    rw [List.nil_append, splitOnChar, if_pos rfl, splitOnChar_single sep c hc]
  | cons x p' ih =>
    intro c hp hc
    have hx : ¬x = sep := fun he => hp (he ▸ List.mem_cons_self x p')
    have hp' : sep ∉ p' := fun hm => hp (List.mem_cons_of_mem _ hm)
    rw [List.cons_append, splitOnChar, if_neg hx, ih c hp' hc]

theorem splitOnChar_pair_rev (sep : Char) :
    ∀ (l p c : List Char), splitOnChar sep l = [p, c] →
      l = p ++ sep :: c ∧ sep ∉ p ∧ sep ∉ c := by
  intro l
  induction l with
  | nil =>
    intro p c h
    rw [splitOnChar] at h
    simp at h
  | cons x rest ih =>
    intro p c h
    rw [splitOnChar] at h
    split_ifs at h with hx
    · subst hx
      simp only [List.cons.injEq] at h
      obtain ⟨hp, hrest⟩ := h
      subst hp
      obtain ⟨hc, hmem⟩ := splitOnChar_single_rev x rest c (by rw [hrest])
      subst hc
      exact ⟨rfl, by simp, hmem⟩
    · cases hs : splitOnChar sep rest with
      | nil => exact absurd hs (splitOnChar_ne_nil sep rest)
      | cons w ws =>
        rw [hs] at h
        simp only [List.cons.injEq] at h
        obtain ⟨hpw, hws⟩ := h
        obtain ⟨hrest, hmemp, hmemc⟩ := ih w c (by rw [hs, hws])
        subst hrest
        subst hpw
        refine ⟨rfl, ?_, hmemc⟩
        intro hm
        rcases List.mem_cons.mp hm with h1 | h1
        · exact hx h1.symm
        · exact hmemp h1

theorem strContainsAux_singleton (ch : Char) :
    ∀ l : List Char, strContainsAux [ch] l = true ↔ ch ∈ l := by
  intro l
  induction l with
  | nil => simp [strContainsAux, strStartsWith]
  | cons a as ih =>
    rw [strContainsAux]
    simp only [strStartsWith, Bool.or_eq_true, Bool.and_eq_true, decide_eq_true_eq,
      List.mem_cons]
    constructor
    · rintro (⟨h1, _⟩ | h2)
      · exact Or.inl h1
      · exact Or.inr (ih.mp h2)
    · rintro (h1 | h2)
      · exact Or.inl ⟨h1, trivial⟩
      · exact Or.inr (ih.mpr h2)

theorem strContainsAux_append_left (needle : List Char) :
    ∀ (pre l : List Char), strContainsAux needle l = true →
      strContainsAux needle (pre ++ l) = true := by
  intro pre
  induction pre with
  | nil => intro l h; exact h
  | cons a pre' ih =>
    intro l h
    rw [List.cons_append, strContainsAux, Bool.or_eq_true]
    exact Or.inr (ih l h)

theorem validParents_facts :
    ∀ p ∈ validParents, '/' ∉ p.data ∧ p.data.map Char.toLower = p.data := by
  decide

theorem isValidConceptId_structure {id : String} (h : isValidConceptId id = true) :
    ∃ parent child : String,
      id = parent ++ "/" ++ child
      ∧ parent ∈ validParents
      ∧ '/' ∉ child.data
      ∧ jsToLower child = child
      ∧ ' ' ∉ child.data
      ∧ child.length ≤ 30
      ∧ (jsSplit child '-').length ≤ 4
      ∧ child ≠ "concept" ∧ child ≠ "new" := by
  rw [isValidConceptId] at h
  split_ifs at h with h1 h2 h3 h4 h5 h6 h7 h8
  have hjs2 : (jsSplit id '/').length = 2 := not_not.mp h2
  have hlen2 : (splitOnChar '/' id.data).length = 2 := by
    simpa [jsSplit] using hjs2
  rcases hsp : splitOnChar '/' id.data with _ | ⟨pd, rest⟩
  · rw [hsp] at hlen2
    simp at hlen2
  rcases rest with _ | ⟨cd, rest2⟩
  · rw [hsp] at hlen2
    simp at hlen2
  rcases rest2 with _ | ⟨x, rest3⟩
  · obtain ⟨hdata, hpmem, hcmem⟩ := splitOnChar_pair_rev '/' id.data pd cd hsp
    have hjs : jsSplit id '/' = [⟨pd⟩, ⟨cd⟩] := by
      rw [jsSplit, hsp]
      rfl
    rw [hjs] at h3 h4 h5 h6 h8
    simp only [List.getD_cons_zero, List.getD_cons_succ] at h3 h4 h5 h6 h8
    refine ⟨⟨pd⟩, ⟨cd⟩, ?_, ?_, hcmem, ?_, ?_, ?_, ?_, ?_, ?_⟩
    · have hstr : (⟨pd⟩ : String) ++ "/" ++ (⟨cd⟩ : String) = ⟨pd ++ '/' :: cd⟩ := by
        show (⟨(pd ++ ['/']) ++ cd⟩ : String) = (⟨pd ++ '/' :: cd⟩ : String)
        rw [List.append_assoc]
        rfl
      rw [hstr]
      show (⟨id.data⟩ : String) = (⟨pd ++ '/' :: cd⟩ : String)
      rw [hdata]
    · simpa using h3
    · have heq : id = jsToLower id := not_not.mp h7
      have hdl : id.data = id.data.map Char.toLower := congrArg String.data heq
      rw [hdata, List.map_append, List.map_cons] at hdl
      have hlenpd : pd.length = (pd.map Char.toLower).length := by simp
      obtain ⟨hpd, hcons⟩ := List.append_inj hdl hlenpd
      simp only [List.cons.injEq] at hcons
      show (⟨cd.map Char.toLower⟩ : String) = (⟨cd⟩ : String)
      rw [← hcons.2]
    · intro hm
      exact h4 ((strContainsAux_singleton ' ' cd).mpr hm)
    · have : ¬((⟨cd⟩ : String).length > 30) := h5
      omega
    · have : ¬((jsSplit (⟨cd⟩ : String) '-').length > 4) := h8
      omega
    · exact fun he => h6 (Or.inl he)
    · exact fun he => h6 (Or.inr he)
  · rw [hsp] at hlen2
    simp at hlen2

theorem isValidConceptId_of_structure (parent child : String)
    (hpar : parent ∈ validParents)
    (hslash : '/' ∉ child.data)
    (hlower : jsToLower child = child)
    (hspace : ' ' ∉ child.data)
    (hlen : child.length ≤ 30)
    (hwords : (jsSplit child '-').length ≤ 4)
    (hconcept : child ≠ "concept") (hnew : child ≠ "new") :
    isValidConceptId (parent ++ "/" ++ child) = true := by
  obtain ⟨hpslash, hplower⟩ := validParents_facts parent hpar
  have hdata : (parent ++ "/" ++ child).data = parent.data ++ '/' :: child.data := by
    rw [String.data_append, String.data_append]
    simp
  have hsl : splitOnChar '/' (parent ++ "/" ++ child).data = [parent.data, child.data] := by
    rw [hdata]
    exact splitOnChar_pair '/' parent.data child.data hpslash hslash
  have hjs : jsSplit (parent ++ "/" ++ child) '/' = [parent, child] := by
    rw [jsSplit, hsl]
    rfl
  have hinc : jsIncludes (parent ++ "/" ++ child) "/" = true := by
    show strContainsAux ['/'] (parent ++ "/" ++ child).data = true
    rw [hdata]
    apply strContainsAux_append_left
    rw [strContainsAux, Bool.or_eq_true]
    left
    simp [strStartsWith]
  have hcontains : validParents.contains parent = true := by
    simpa using hpar
  have hjsinc : jsIncludes child " " = false := by
    rw [Bool.eq_false_iff]
    intro hx
    exact hspace ((strContainsAux_singleton ' ' child.data).mp hx)
  have hlowid : jsToLower (parent ++ "/" ++ child) = parent ++ "/" ++ child := by
    have hcl : child.data.map Char.toLower = child.data := congrArg String.data hlower
    show (⟨(parent ++ "/" ++ child).data.map Char.toLower⟩ : String) = _
    rw [hdata, List.map_append, List.map_cons, hplower, hcl,
      (by decide : Char.toLower '/' = '/'), ← hdata]
  rw [isValidConceptId, hjs]
  simp only [List.getD_cons_zero, List.getD_cons_succ]
  rw [hinc, hcontains, hjsinc, hlowid]
  rw [if_neg (by simp)]
  rw [if_neg (by simp)]
  rw [if_neg (by simp)]
  rw [if_neg (by simp)]
  rw [if_neg (by omega)]
  rw [if_neg (not_or.mpr ⟨hconcept, hnew⟩)]
  rw [if_neg (by simp)]
  rw [if_neg (by omega)]

/-- C9: `isValidConceptId` accepts exactly the ids of the form
`"<parent>/<child>"` with `parent` in the fixed category whitelist and `child`
slash-free, lowercase, space-free (purely hyphen-separated), at most 30
characters, at most 4 hyphen-words, and not the placeholder `"concept"` or
`"new"`; and every proposal surviving `validateProposedConcepts` — the filter
the enrichment pipeline applies to raw LLM output before
`autoAcceptProposals` ever runs the embedding / similarity-retrieval / judge
steps — carries a valid id, so structurally invalid proposals are filtered
out before those steps are reached. -/
theorem conceptId_structural_validation :
    (∀ id : String, isValidConceptId id = true ↔
      ∃ parent child : String,
        id = parent ++ "/" ++ child
        ∧ parent ∈ validParents
        ∧ '/' ∉ child.data
        ∧ jsToLower child = child
        ∧ ' ' ∉ child.data
        ∧ child.length ≤ 30
        ∧ (jsSplit child '-').length ≤ 4
        ∧ child ≠ "concept" ∧ child ≠ "new")
    ∧ (∀ (cs : List ProposedConcept) (c : ProposedConcept),
        c ∈ validateProposedConcepts (some cs) → isValidConceptId c.id = true) := by
  constructor
  · intro id
    constructor
    · exact isValidConceptId_structure
    · rintro ⟨parent, child, hid, hpar, hslash, hlower, hspace, hlen, hwords, hconcept, hnew⟩
      subst hid
      exact isValidConceptId_of_structure parent child hpar hslash hlower hspace hlen
        hwords hconcept hnew
  · intro cs c hc
    rw [validateProposedConcepts] at hc
    obtain ⟨hmem, hpred⟩ := List.mem_filter.mp hc
    split_ifs at hpred with h1 h2 h3
    simpa using h2

/-- Witness for C9: a well-formed id is accepted via its decomposition, and a
proposal surviving the filter has a valid id. -/
theorem conceptId_structural_validation_witness :
    isValidConceptId "education/spaced-repetition" = true
    ∧ isValidConceptId pDemo.id = true := by
  constructor
  · exact (conceptId_structural_validation.1 "education/spaced-repetition").mpr
      ⟨"education", "spaced-repetition", rfl, by decide, by decide, by decide, by decide,
        by decide, by decide, by decide, by decide⟩
  · exact conceptId_structural_validation.2 [pDemo] pDemo (by decide)
